import Mathlib

/-!
# google-storage-dumper: the listing reducer and the download coordinator

A shallow embedding of `main.go`.  The program talks to three things that are
not part of it: an HTTP server, the XML decoder and the file system.  They are
the `World` a run is parameterised by (server and decoder) and the `FS` part of
the system state (a tree of files and directories keyed by cleaned path).
Every definition that carries the name of a function of `main.go` follows that
function statement by statement; Go's `(value, error)` results are `Except`
values (`.error e` is `nil, err`; `.ok v` is `&v, nil`) and an `error` alone is
an `Option String` (`none` is `nil`).
-/

deriving instance DecidableEq for Except

namespace GoogleStorageDumper

/-! ## Data model (`main.go`, lines 16-43) -/

/-- One `Contents` element of a listing page (`type Content struct`). -/
structure Content where
  Key : String
  Generation : Int
  Metageneration : Int
  LastModified : String
  ETag : String
  Size : Int
deriving DecidableEq

/-- One decoded listing page (`type ListBucketResult struct`); `XMLName` is the
pair (space, local name) of `xml.Name`. -/
structure ListBucketResult where
  XMLName : String × String
  Name : String
  Prefix : String
  Marker : String
  NextMarker : String
  IsTruncated : Bool
  Contents : List Content
deriving DecidableEq

/-- Go's zero value of `ListBucketResult` (`var lastResult ListBucketResult`). -/
def ListBucketResult.zero : ListBucketResult :=
  { XMLName := ("", ""), Name := "", Prefix := "", Marker := "", NextMarker := "",
    IsTruncated := false, Contents := [] }

/-- The three package-level variables `storageURL`, `bucketName`, `dataFolder`. -/
structure Config where
  storageURL : String
  bucketName : String
  dataFolder : String
deriving DecidableEq

/-! ## The HTTP side of the world -/

/-- A response body as a reader sees it: the bytes it yields and, when reading
ends in a failure rather than in end-of-file, that failure. -/
structure Body where
  data : String
  readErr : Option String
deriving DecidableEq

/-- What the program reads of an `*http.Response`. -/
structure Response where
  StatusCode : Nat
  Status : String
  Body : Body
deriving DecidableEq

/-- What `client.Do` returns: a transport failure or a response. -/
inductive Reply where
  | failed (err : String)
  | response (rs : Response)
deriving DecidableEq

/-- One request that went out on the wire, with what came back. -/
structure Exchange where
  url : String
  reply : Reply
deriving DecidableEq

/-- A node of the file tree. -/
inductive Node where
  | file (data : String)
  | dir
deriving DecidableEq

/-- The file tree: what is found at a (cleaned) path. -/
abbrev FS := String → Option Node

/-- The environment of a run: `newRequest url` is the error of
`http.NewRequest(GET, url, nil)` if any, `roundTrip` is the server behind
`client.Do` (with its own state `σ`), `xmlDecode` is
`xml.NewDecoder(body).Decode(&result)` on a fresh `result`. -/
structure World (σ : Type) where
  newRequest : String → Option String
  roundTrip : σ → String → Reply × σ
  xmlDecode : Body → Except String ListBucketResult

/-- The state a run threads: the server, the requests issued so far (oldest
first) and the file tree. -/
structure Sys (σ : Type) where
  srv : σ
  http : List Exchange
  fs : FS

variable {σ : Type}

/-- The call `client.Do(rq)`: the request goes out and is recorded. -/
def clientDo (w : World σ) (url : String) (s : Sys σ) : Reply × Sys σ :=
  let r := w.roundTrip s.srv url
  (r.1, { s with srv := r.2, http := s.http ++ [{ url := url, reply := r.1 }] })

/-! ## Listing reducer (`main.go`, lines 90-141) -/

/-- The function `getBucketList` (lines 118-141). -/
def getBucketList (w : World σ) (url : String) (s : Sys σ) :
    Except String ListBucketResult × Sys σ :=
  match w.newRequest url with
  | some err => (.error err, s)
  | none =>
    match clientDo w url s with
    | (.failed err, s1) => (.error err, s1)
    | (.response rs, s1) =>
      if rs.StatusCode != 200 then
        (.error ("failed to access bucket: " ++ rs.Status), s1)
      else
        match w.xmlDecode rs.Body with
        | .error err => (.error err, s1)
        | .ok result => (.ok result, s1)

/-- Lines 95-98: the URL of the next listing request, given the last page seen. -/
def listURL (cfg : Config) (lastResult : ListBucketResult) : String :=
  let url := cfg.storageURL ++ cfg.bucketName
  if lastResult.NextMarker != "" then url ++ "?marker=" ++ lastResult.NextMarker else url

/-- The `for` loop of `getAllBucketList` (lines 94-111) followed by lines
113-115, with the loop's two variables as arguments.  The loop has no bound of
its own, so the model counts iterations: `none` means the loop is still running
after `fuel` iterations. -/
def getAllBucketListLoop (w : World σ) (cfg : Config) :
    Nat → List Content → ListBucketResult → Sys σ →
      Option (Except String ListBucketResult) × Sys σ
  | 0, _, _, s => (none, s)
  | fuel + 1, allContents, lastResult, s =>
    let url := listURL cfg lastResult
    match getBucketList w url s with
    | (.error err, s1) => (some (.error ("failed to get bucket list: " ++ err)), s1)
    | (.ok result, s1) =>
      let lastResult := result
      let allContents := allContents ++ result.Contents
      if !result.IsTruncated then
        (some (.ok { lastResult with Contents := allContents }), s1)
      else
        getAllBucketListLoop w cfg fuel allContents lastResult s1

/-- The function `getAllBucketList` (lines 90-116). -/
def getAllBucketList (w : World σ) (cfg : Config) (fuel : Nat) (s : Sys σ) :
    Option (Except String ListBucketResult) × Sys σ :=
  getAllBucketListLoop w cfg fuel [] ListBucketResult.zero s

/-! ## Paths (`path/filepath` on a slash-separated system)

The functions of Go's library the program calls, on the characters of a path:
`Clean` applies its four documented rules element by element. -/

/-- The elements of a path: the stretches between slashes (`"a//b"` has the
elements `a`, the empty one and `b`). -/
def splitSlash : List Char → List (List Char)
  | [] => [[]]
  | c :: cs =>
    if c = '/' then [] :: splitSlash cs
    else
      match splitSlash cs with
      | [] => [[c]]
      | seg :: segs => (c :: seg) :: segs

/-- The elements put together again with one slash between neighbours. -/
def joinSlash : List (List Char) → List Char
  | [] => []
  | [seg] => seg
  | seg :: segs => seg ++ '/' :: joinSlash segs

/-- One element read by `Clean`, `out` being the elements written so far: an
empty element and `.` are dropped; `..` removes the element before it when there
is one that is not itself `..`, is dropped at the root, and is kept otherwise;
any other element is written. -/
def cleanStep (rooted : Bool) (out : List (List Char)) (seg : List Char) : List (List Char) :=
  if seg = [] ∨ seg = ['.'] then out
  else if seg = ['.', '.'] then
    match out.getLast? with
    | some top =>
      if top = ['.', '.'] then (if rooted then out else out ++ [seg]) else out.dropLast
    | none => if rooted then out else out ++ [seg]
  else out ++ [seg]

/-- The elements `Clean` keeps of a path. -/
def cleanSegs (rooted : Bool) (cs : List Char) : List (List Char) :=
  (splitSlash cs).foldl (cleanStep rooted) []

/-- The function `filepath.Clean`. -/
def filepathClean (path : String) : String :=
  if path = "" then "."
  else
    let rooted : Bool := path.data.head? = some '/'
    let out := cleanSegs rooted path.data
    if rooted then ⟨'/' :: joinSlash out⟩
    else if out = [] then "."
    else ⟨joinSlash out⟩

/-- The function `strings.Join`. -/
def stringsJoin : List String → String → String
  | [], _ => ""
  | [e], _ => e
  | e :: es, sep => e ++ sep ++ stringsJoin es sep

/-- The function `filepath.Join`: leading empty elements are skipped, the rest is
joined with slashes and cleaned. -/
def filepathJoin : List String → String
  | [] => ""
  | e :: rest =>
    if e != "" then filepathClean (stringsJoin (e :: rest) "/") else filepathJoin rest

/-- The function `filepath.Dir`: all but the last element of the path, cleaned. -/
def filepathDir (path : String) : String :=
  filepathClean ⟨(path.data.reverse.dropWhile (fun c => c != '/')).reverse⟩

/-- The shape of what `Clean` has written: some `..` elements (none when the
path is rooted) followed by proper elements. -/
def CleanShape (rooted : Bool) (out : List (List Char)) : Prop :=
  ∃ (k : Nat) (names : List (List Char)),
    out = List.replicate k ['.', '.'] ++ names ∧
      (∀ seg ∈ names, seg ≠ [] ∧ seg ≠ ['.'] ∧ seg ≠ ['.', '.']) ∧
      (rooted = true → k = 0)

/-! ## File system (`os`)

A tree without links or permissions, keyed by cleaned path: an operation fails
exactly when the shape of the tree forbids it. -/

/-- The tree with `node` at the cleaned path `key`. -/
def FS.put (fs : FS) (key : String) (node : Node) : FS :=
  fun q => if q = key then some node else fs q

/-- The function `os.Stat`, as far as the kind of node goes. -/
def osStat (fs : FS) (path : String) : Option Node :=
  fs (filepathClean path)

/-- The function `os.Mkdir`: the path must be free and its parent a directory. -/
def osMkdir (fs : FS) (path : String) : Option String × FS :=
  let key := filepathClean path
  match fs key with
  | some _ => (some ("mkdir " ++ path ++ ": file exists"), fs)
  | none =>
    match fs (filepathDir key) with
    | some .dir => (none, fs.put key .dir)
    | some (.file _) => (some ("mkdir " ++ path ++ ": not a directory"), fs)
    | none => (some ("mkdir " ++ path ++ ": no such file or directory"), fs)

/-- What `os.MkdirAll` takes for the parent of `path`: trailing slashes and then
the last element are cut off (`path[:i+1]`). -/
def parentPart (path : String) : String :=
  ⟨((path.data.reverse.dropWhile (fun c => c == '/')).dropWhile (fun c => c != '/')).reverse⟩

/-- The function `os.MkdirAll`, which calls itself on the parent; `fuel` bounds
the depth of that recursion, and the first case is never reached when it
exceeds the length of the path (`mkdirAllAux_fuel`). -/
def mkdirAllAux : Nat → FS → String → Option String × FS
  | 0, fs, path => (some ("mkdir " ++ path ++ ": file name too long"), fs)
  | fuel + 1, fs, path =>
    match osStat fs path with
    | some .dir => (none, fs)
    | some (.file _) => (some ("mkdir " ++ path ++ ": not a directory"), fs)
    | none =>
      let parent := parentPart path
      match (if parent.length > 0 then mkdirAllAux fuel fs parent else (none, fs)) with
      | (some err, fs1) => (some err, fs1)
      | (none, fs1) =>
        match osMkdir fs1 path with
        | (none, fs2) => (none, fs2)
        | (some err, fs2) =>
          match osStat fs2 path with
          | some .dir => (none, fs2)
          | _ => (some err, fs2)

/-- The function `os.MkdirAll`: each parent is shorter than its path, so the
length of the path bounds the recursion. -/
def osMkdirAll (fs : FS) (path : String) : Option String × FS :=
  mkdirAllAux (path.length + 1) fs path

/-- The function `os.Create`: an existing file is truncated, a new one needs a
directory as parent, a directory cannot be opened for writing. -/
def osCreate (fs : FS) (path : String) : Option String × FS :=
  let key := filepathClean path
  match fs key with
  | some .dir => (some ("open " ++ path ++ ": is a directory"), fs)
  | some (.file _) => (none, fs.put key (.file ""))
  | none =>
    match fs (filepathDir key) with
    | some .dir => (none, fs.put key (.file ""))
    | some (.file _) => (some ("open " ++ path ++ ": not a directory"), fs)
    | none => (some ("open " ++ path ++ ": no such file or directory"), fs)

/-- The call `outFile.ReadFrom(body)` on the file just created at `path`: what
the body yields is written, and a failure of the read is the error returned. -/
def fileReadFrom (fs : FS) (path : String) (body : Body) : Option String × FS :=
  (body.readErr, fs.put (filepathClean path) (.file body.data))

/-- A tree is well formed when everything in it sits in a directory. -/
def WellFormed (fs : FS) : Prop :=
  ∀ q, fs q ≠ none → fs (filepathDir q) = some .dir

/-! ## Download coordinator (`main.go`, lines 69-85 and 143-174) -/

/-- The function `getContent` (lines 143-174). -/
def getContent (w : World σ) (cfg : Config) (key : String) (s : Sys σ) :
    Option String × Sys σ :=
  let url := cfg.storageURL ++ cfg.bucketName ++ "/" ++ key
  match w.newRequest url with
  | some err => (some err, s)
  | none =>
    match clientDo w url s with
    | (.failed err, s1) => (some err, s1)
    | (.response rs, s1) =>
      if rs.StatusCode != 200 then
        (some ("failed to access content: " ++ rs.Status), s1)
      else
        let filePath := filepathJoin [cfg.dataFolder, key]
        match osMkdirAll s1.fs (filepathDir filePath) with
        | (some err, fs1) =>
          (some ("failed to create directory for file " ++ filePath ++ ": " ++ err),
            { s1 with fs := fs1 })
        | (none, fs1) =>
          match osCreate fs1 filePath with
          | (some err, fs2) =>
            (some ("failed to create file " ++ filePath ++ ": " ++ err), { s1 with fs := fs2 })
          | (none, fs2) =>
            match fileReadFrom fs2 filePath rs.Body with
            | (some err, fs3) =>
              (some ("failed to write content to file " ++ filePath ++ ": " ++ err),
                { s1 with fs := fs3 })
            | (none, fs3) => (none, { s1 with fs := fs3 })

/-- The function literal handed to `er.Go` (lines 73-80) for one entry. -/
def downloadUnit (w : World σ) (cfg : Config) (content : Content) (s : Sys σ) :
    Option String × Sys σ :=
  if content.Size == 0 then (none, s) else getContent w cfg content.Key s

/-- An `errgroup.Group` without a context: all it keeps is the first error. -/
structure Group where
  err : Option String
deriving DecidableEq

/-- The method `Group.Go`: the function runs, and its error is kept when it is
the first one.  A unit runs to its end before the next takes effect. -/
def Group.Go (g : Group) (f : Sys σ → Option String × Sys σ) (s : Sys σ) : Group × Sys σ :=
  let r := f s
  match r.1 with
  | none => (g, r.2)
  | some err =>
    match g.err with
    | none => ({ err := some err }, r.2)
    | some _ => (g, r.2)

/-- The method `Group.Wait`. -/
def Group.Wait (g : Group) : Option String := g.err

/-- Lines 69-82 of `main`: every entry of the catalog is handed to `er.Go`, then
`er.Wait()` is taken.  The list is read in the order the units take effect, and
each function literal works on the `content` of its own iteration (the loop
variable is per iteration, as from Go 1.22). -/
def downloadPhase (w : World σ) (cfg : Config) (contents : List Content) (s : Sys σ) :
    Option String × Sys σ :=
  let r := contents.foldl
    (fun (acc : Group × Sys σ) content => acc.1.Go (downloadUnit w cfg content) acc.2)
    ({ err := none }, s)
  (r.1.Wait, r.2)

/-- What each unit of a run returned and the state it left, unit by unit. -/
def runUnits (w : World σ) (cfg : Config) : List Content → Sys σ → List (Option String × Sys σ)
  | [], _ => []
  | content :: rest, s =>
    let r := downloadUnit w cfg content s
    r :: runUnits w cfg rest r.2

/-- There is a file at the key `q`. -/
def IsFile (fs : FS) (q : String) : Prop := ∃ data, fs q = some (.file data)

/-- The state the units of a run leave it in. -/
def finalState (w : World σ) (cfg : Config) : List Content → Sys σ → Sys σ
  | [], s => s
  | content :: rest, s => finalState w cfg rest (downloadUnit w cfg content s).2

/-- The first error among the outcomes of the units, if any. -/
def firstError : List (Option String × Sys σ) → Option String
  | [] => none
  | r :: rest =>
    match r.1 with
    | some err => some err
    | none => firstError rest

/-! ## Command line (`flag`, and lines 46-52 of `main`) -/

/-- The part of a `flag.FlagSet` the program uses: the string flags defined so
far with the current value of the variable each is bound to, and the arguments
left over by `Parse` (none before `Parse` has run). -/
structure FlagSet where
  formal : List (String × String)
  args : List String
deriving DecidableEq

/-- The flag set `flag.CommandLine` at program start. -/
def FlagSet.commandLine : FlagSet := { formal := [], args := [] }

/-- The method `StringVar`: the flag is defined and its variable set to the default. -/
def FlagSet.StringVar (f : FlagSet) (name value : String) : FlagSet :=
  { f with formal := f.formal ++ [(name, value)] }

/-- The method `Arg`: the i-th remaining argument, `""` when there is none. -/
def FlagSet.Arg (f : FlagSet) (i : Nat) : String :=
  f.args.getD i ""

/-- The current value of the variable bound to a flag. -/
def FlagSet.value (f : FlagSet) (name : String) : String :=
  (f.formal.lookup name).getD ""

/-- The call `flag.Value.Set(value)` on the flag called `name`. -/
def FlagSet.set (f : FlagSet) (name value : String) : FlagSet :=
  { f with formal := f.formal.map (fun p => if p.1 = name then (p.1, value) else p) }

/-- The scan of `parseOne` for an `=` that is not the first character of the
name: the name before it and the value after it. -/
def splitEquals : List Char → List Char → Option (List Char × List Char)
  | _, [] => none
  | seen, c :: rest =>
    if c = '=' ∧ seen ≠ [] then some (seen, rest) else splitEquals (seen ++ [c]) rest

/-- The method `parseOne`: `.ok (true, f)` when a flag was read, `.ok (false, f)`
at the end of the flags, `.error` on a malformed or unknown flag. -/
def FlagSet.parseOne (f : FlagSet) : Except String (Bool × FlagSet) :=
  match f.args with
  | [] => .ok (false, f)
  | s :: rest =>
    if s.length < 2 ∨ s.data.head? ≠ some '-' then .ok (false, f)
    else
      let numMinuses := if s.data.get? 1 = some '-' then 2 else 1
      if numMinuses = 2 ∧ s.length = 2 then .ok (false, { f with args := rest })
      else
        let name := s.data.drop numMinuses
        if name = [] ∨ name.head? = some '-' ∨ name.head? = some '=' then
          .error ("bad flag syntax: " ++ s)
        else
          let f1 : FlagSet := { f with args := rest }
          let nv : String × Option String :=
            match splitEquals [] name with
            | some (n, v) => (⟨n⟩, some ⟨v⟩)
            | none => (⟨name⟩, none)
          match f1.formal.lookup nv.1 with
          | none =>
            if nv.1 = "help" ∨ nv.1 = "h" then .error "flag: help requested"
            else .error ("flag provided but not defined: -" ++ nv.1)
          | some _ =>
            match nv.2 with
            | some value => .ok (true, f1.set nv.1 value)
            | none =>
              match f1.args with
              | value :: rest1 => .ok (true, ({ f1 with args := rest1 }).set nv.1 value)
              | [] => .error ("flag needs an argument: -" ++ nv.1)

/-- The loop of `Parse`: flags are read until `parseOne` reports the end or an
error; each flag read consumes an argument, which bounds the loop by `fuel`. -/
def FlagSet.parseLoop : Nat → FlagSet → Except String FlagSet
  | 0, f => .ok f
  | fuel + 1, f =>
    match f.parseOne with
    | .error err => .error err
    | .ok (true, f1) => FlagSet.parseLoop fuel f1
    | .ok (false, f1) => .ok f1

/-- The method `Parse` on the arguments after the program name; `.error` stands
for the exit of the process that `flag.ExitOnError` asks for. -/
def FlagSet.Parse (f : FlagSet) (arguments : List String) : Except String FlagSet :=
  FlagSet.parseLoop (arguments.length + 1) { f with args := arguments }

/-- Lines 46-52 of `main`: the two flags are defined, `dataFolder` is read from
`flag.Arg(0)` and defaulted, and then the command line is parsed.  The result is
the configuration the rest of `main` runs with. -/
def mainFlags (argv : List String) : Except String Config :=
  let f := FlagSet.commandLine
  let f := f.StringVar "storage-url" "https://storage.googleapis.com/"
  let f := f.StringVar "bucket-name" "pokemongolive"
  let dataFolder := f.Arg 0
  let dataFolder := if dataFolder == "" then "./data" else dataFolder
  match f.Parse argv with
  | .error err => .error err
  | .ok f1 =>
    .ok { storageURL := f1.value "storage-url", bucketName := f1.value "bucket-name",
          dataFolder := dataFolder }

/-- How the process ends: `log.Println` of the success message and a normal
return, or `log.Fatalf` (or the exit of the flag package) with a message. -/
inductive Exit where
  | success
  | fatal (msg : String)
deriving DecidableEq

/-- The function `main` (lines 45-88): flags, the data folder, the listing, the
download phase.  `none` means the listing loop is still running after `fuel`
turns. -/
def main (w : World σ) (argv : List String) (fuel : Nat) (s : Sys σ) : Option Exit × Sys σ :=
  match mainFlags argv with
  | .error err => (some (.fatal err), s)
  | .ok cfg =>
    match osMkdirAll s.fs cfg.dataFolder with
    | (some err, fs1) =>
      (some (.fatal ("failed to create data folder: " ++ err)), { s with fs := fs1 })
    | (none, fs1) =>
      match getAllBucketList w cfg fuel { s with fs := fs1 } with
      | (none, s2) => (none, s2)
      | (some (.error err), s2) => (some (.fatal ("Error getting bucket list: " ++ err)), s2)
      | (some (.ok contents), s2) =>
        match downloadPhase w cfg contents.Contents s2 with
        | (some err, s3) => (some (.fatal ("Error downloading files: " ++ err)), s3)
        | (none, s3) => (some .success, s3)

/-! ## Runs of the listing reducer -/

/-- The reducer's successive requests, starting after the page `last` in the
state `s`, are answered with exactly the pages `pages`, each decoded without
error. -/
def ServesPages (w : World σ) (cfg : Config) :
    ListBucketResult → Sys σ → List ListBucketResult → Prop
  | _, _, [] => True
  | last, s, p :: ps =>
    (getBucketList w (listURL cfg last) s).1 = .ok p ∧
      ServesPages w cfg p (getBucketList w (listURL cfg last) s).2 ps

/-- The last page seen and the state reached once the reducer has fetched
`pages` one after the other. -/
def afterPages (w : World σ) (cfg : Config) :
    ListBucketResult → Sys σ → List ListBucketResult → ListBucketResult × Sys σ
  | last, s, [] => (last, s)
  | last, s, p :: ps => afterPages w cfg p (getBucketList w (listURL cfg last) s).2 ps

/-- The request for `url` in state `s` does not produce a page: the request
cannot be built, the transport fails, the status is not 200, or the body does
not decode. -/
def fetchFails (w : World σ) (url : String) (s : Sys σ) : Bool :=
  (w.newRequest url).isSome ||
    match (w.roundTrip s.srv url).1 with
    | .failed _ => true
    | .response rs =>
      rs.StatusCode != 200 ||
        match w.xmlDecode rs.Body with
        | .error _ => true
        | .ok _ => false

/-- The requests of a listing run form a chain: each is for the URL derived from
the page before it, and a request is followed by another only if it was answered
with a page that decoded. -/
def UrlChain (w : World σ) (cfg : Config) : ListBucketResult → List Exchange → Prop
  | _, [] => True
  | last, e :: es =>
    e.url = listURL cfg last ∧
      (es = [] ∨ ∃ rs p, e.reply = .response rs ∧ w.xmlDecode rs.Body = .ok p ∧
        UrlChain w cfg p es)

/-- The URLs of the requests for `pages`: the first derived from `last`, each
later one from the page before it. -/
def pageURLs (cfg : Config) : ListBucketResult → List ListBucketResult → List String
  | _, [] => []
  | last, p :: ps => listURL cfg last :: pageURLs cfg p ps

/-- The exchanges a run of `getAllBucketList` adds to the record, oldest first. -/
def listingRequests (w : World σ) (cfg : Config) (fuel : Nat) (s : Sys σ) : List Exchange :=
  (getAllBucketList w cfg fuel s).2.http.drop s.http.length

/-! ## A sample bucket, used to run the definitions on concrete inputs -/

/-- A catalog entry with the given key and size. -/
def sampleContent (key : String) (size : Int) : Content :=
  { Key := key, Generation := 1, Metageneration := 1,
    LastModified := "2020-01-01T00:00:00.000Z", ETag := "e0", Size := size }

/-- A listing page with the given next-marker, truncation flag and entries. -/
def samplePage (nextMarker : String) (truncated : Bool) (contents : List Content) :
    ListBucketResult :=
  { XMLName := ("", "ListBucketResult"), Name := "bucket", Prefix := "", Marker := "",
    NextMarker := nextMarker, IsTruncated := truncated, Contents := contents }

/-- First page: truncated, with a next-marker. -/
def samplePage1 : ListBucketResult :=
  samplePage "b/2.bin" true [sampleContent "a/1.bin" 3, sampleContent "b/2.bin" 0]

/-- Second page: truncated, without a next-marker. -/
def samplePage2 : ListBucketResult :=
  samplePage "" true [sampleContent "b/3.bin" 5]

/-- Third page: not truncated, although it carries a next-marker. -/
def samplePage3 : ListBucketResult :=
  samplePage "zzz" false [sampleContent "c.bin" 2]

/-- An answer with status 200 and the given body. -/
def sampleOK (data : String) : Reply :=
  .response { StatusCode := 200, Status := "200 OK", Body := { data := data, readErr := none } }

/-- An answer with status 404. -/
def sampleNotFound : Reply :=
  .response { StatusCode := 404, Status := "404 Not Found",
              Body := { data := "", readErr := none } }

/-- The objects of the sample bucket by URL; `b/3.bin` is listed but missing. -/
def sampleObjects : List (String × Reply) :=
  [("https://storage.example/bucket/a/1.bin", sampleOK "abc"),
   ("https://storage.example/bucket/b/3.bin", sampleNotFound),
   ("https://storage.example/bucket/c.bin", sampleOK "hi")]

/-- A server that answers object URLs from `sampleObjects` and every other
request with the next answer of `listing`; its state counts the listing
requests.  The decoder knows the three sample pages by the text of their body. -/
def sampleWorld (listing : List Reply) : World Nat where
  newRequest := fun _ => none
  roundTrip := fun n url =>
    match sampleObjects.lookup url with
    | some r => (r, n)
    | none => (listing.getD n (.failed "connection refused"), n + 1)
  xmlDecode := fun body =>
    match [("page1", samplePage1), ("page2", samplePage2), ("page3", samplePage3),
           ("empty", samplePage "" false [])].lookup body.data with
    | some p => .ok p
    | none => .error "EOF"

/-- The configuration of the sample runs. -/
def sampleCfg : Config :=
  { storageURL := "https://storage.example/", bucketName := "bucket", dataFolder := "./data" }

/-- The state the sample runs start in: nothing requested yet, and a file tree
holding the working directory only. -/
def sampleSys : Sys Nat :=
  { srv := 0, http := [], fs := fun q => if q = "." then some .dir else none }

/-- Whether a server serves given pages can be checked by running the requests. -/
instance decServesPages (w : World σ) (cfg : Config) :
    (pages : List ListBucketResult) → (last : ListBucketResult) → (s : Sys σ) →
      Decidable (ServesPages w cfg last s pages)
  | [], _, _ => isTrue trivial
  | p :: ps, last, s =>
    have := decServesPages w cfg ps p (getBucketList w (listURL cfg last) s).2
    inferInstanceAs (Decidable (_ ∧ _))

/-- A key all of whose slash-separated elements are proper names: none is empty,
`.` or `..` (so the key is not empty and neither starts nor ends with a slash). -/
def cleanKey (key : String) : Bool :=
  (splitSlash key.data).all
    (fun seg => decide (seg ≠ [] ∧ seg ≠ ['.'] ∧ seg ≠ ['.', '.']))

/-! ## Lemmas on the listing reducer -/

theorem ServesPages_append (w : World σ) (cfg : Config) (a b : List ListBucketResult) :
    ∀ (last : ListBucketResult) (s : Sys σ),
      ServesPages w cfg last s (a ++ b) ↔
        ServesPages w cfg last s a ∧
          ServesPages w cfg (afterPages w cfg last s a).1 (afterPages w cfg last s a).2 b := by
  induction a with
  | nil => intro last s; simp [ServesPages, afterPages]
  | cons p ps ih =>
    intro last s
    rw [List.cons_append]
    simp only [ServesPages, afterPages, ih, and_assoc]

theorem afterPages_append (w : World σ) (cfg : Config) (a b : List ListBucketResult) :
    ∀ (last : ListBucketResult) (s : Sys σ),
      afterPages w cfg last s (a ++ b) =
        afterPages w cfg (afterPages w cfg last s a).1 (afterPages w cfg last s a).2 b := by
  induction a with
  | nil => intro last s; simp [afterPages]
  | cons p ps ih =>
    intro last s
    rw [List.cons_append]
    simp only [afterPages, ih]

/-- One turn of the loop on a page that decodes and is truncated. -/
theorem loop_step_truncated (w : World σ) (cfg : Config) (fuel : Nat) (acc : List Content)
    (last p : ListBucketResult) (s : Sys σ)
    (hp : (getBucketList w (listURL cfg last) s).1 = .ok p) (ht : p.IsTruncated = true) :
    getAllBucketListLoop w cfg (fuel + 1) acc last s =
      getAllBucketListLoop w cfg fuel (acc ++ p.Contents) p
        (getBucketList w (listURL cfg last) s).2 := by
  have h : getBucketList w (listURL cfg last) s = (.ok p, (getBucketList w (listURL cfg last) s).2) :=
    Prod.ext hp rfl
  rw [getAllBucketListLoop]
  simp only []
  rw [h]
  simp [ht]

/-- One turn of the loop on a page that decodes and is not truncated. -/
theorem loop_step_final (w : World σ) (cfg : Config) (fuel : Nat) (acc : List Content)
    (last p : ListBucketResult) (s : Sys σ)
    (hp : (getBucketList w (listURL cfg last) s).1 = .ok p) (ht : p.IsTruncated = false) :
    getAllBucketListLoop w cfg (fuel + 1) acc last s =
      (some (.ok { p with Contents := acc ++ p.Contents }),
        (getBucketList w (listURL cfg last) s).2) := by
  have h : getBucketList w (listURL cfg last) s = (.ok p, (getBucketList w (listURL cfg last) s).2) :=
    Prod.ext hp rfl
  rw [getAllBucketListLoop]
  simp only []
  rw [h]
  simp [ht]

/-- One turn of the loop on a request that fails. -/
theorem loop_step_error (w : World σ) (cfg : Config) (fuel : Nat) (acc : List Content)
    (last : ListBucketResult) (s : Sys σ) (err : String)
    (hp : (getBucketList w (listURL cfg last) s).1 = .error err) :
    getAllBucketListLoop w cfg (fuel + 1) acc last s =
      (some (.error ("failed to get bucket list: " ++ err)),
        (getBucketList w (listURL cfg last) s).2) := by
  have h : getBucketList w (listURL cfg last) s = (.error err, (getBucketList w (listURL cfg last) s).2) :=
    Prod.ext hp rfl
  rw [getAllBucketListLoop]
  simp only []
  rw [h]

/-- Truncated pages are folded into the accumulator one turn each. -/
theorem loop_truncated_pages (w : World σ) (cfg : Config) (fuel : Nat)
    (pages : List ListBucketResult) :
    ∀ (acc : List Content) (last : ListBucketResult) (s : Sys σ),
      ServesPages w cfg last s pages → (∀ p ∈ pages, p.IsTruncated = true) →
      getAllBucketListLoop w cfg (pages.length + fuel) acc last s =
        getAllBucketListLoop w cfg fuel (acc ++ (pages.map (fun p => p.Contents)).flatten)
          (afterPages w cfg last s pages).1 (afterPages w cfg last s pages).2 := by
  induction pages with
  | nil => intro acc last s _ _; simp [afterPages]
  | cons p ps ih =>
    intro acc last s hs ht
    have e : (p :: ps).length + fuel = (ps.length + fuel) + 1 := by simp; omega
    rw [e, loop_step_truncated w cfg _ acc last p s hs.1 (ht p (by simp))]
    rw [ih _ _ _ hs.2 (fun q hq => ht q (by simp [hq]))]
    simp [afterPages, List.append_assoc]

/-- A request that fails in one of the listed ways makes `getBucketList` return
an error. -/
theorem getBucketList_of_fetchFails (w : World σ) (url : String) (s : Sys σ)
    (h : fetchFails w url s = true) : ∃ err, (getBucketList w url s).1 = .error err := by
  unfold getBucketList
  unfold fetchFails at h
  cases hn : w.newRequest url with
  | some e => exact ⟨e, rfl⟩
  | none =>
    simp only [hn, Option.isSome_none, Bool.false_or] at h
    simp only [clientDo]
    cases hr : (w.roundTrip s.srv url).1 with
    | failed e => exact ⟨e, rfl⟩
    | response rs =>
      rw [hr] at h
      simp only at h
      by_cases hc : rs.StatusCode = 200
      · cases hd : w.xmlDecode rs.Body with
        | error e => exact ⟨e, by simp [hc, hd]⟩
        | ok q => simp [hc, hd] at h
      · exact ⟨"failed to access bucket: " ++ rs.Status, by simp [hc]⟩

/-- A page is returned only for a request that went out, and then exactly one
exchange is recorded: the one for that URL, answered 200 with a body that
decodes to the page. -/
theorem getBucketList_ok (w : World σ) (url : String) (s : Sys σ) (p : ListBucketResult)
    (h : (getBucketList w url s).1 = .ok p) :
    ∃ rs, (getBucketList w url s).2.http = s.http ++ [{ url := url, reply := .response rs }] ∧
      rs.StatusCode = 200 ∧ w.xmlDecode rs.Body = .ok p := by
  unfold getBucketList at h ⊢
  cases hn : w.newRequest url with
  | some e => simp [hn] at h
  | none =>
    simp only [hn, clientDo] at h ⊢
    cases hr : (w.roundTrip s.srv url).1 with
    | failed e => simp [hr] at h
    | response rs =>
      simp only [hr] at h ⊢
      by_cases hc : rs.StatusCode = 200
      · cases hd : w.xmlDecode rs.Body with
        | error e => simp [hc, hd] at h
        | ok q =>
          simp [hc, hd] at h ⊢
          exact h
      · simp [hc] at h

/-- Every call of `getBucketList` records at most one exchange, for its URL. -/
theorem getBucketList_http (w : World σ) (url : String) (s : Sys σ) :
    (getBucketList w url s).2.http = s.http ∨
      ∃ r, (getBucketList w url s).2.http = s.http ++ [{ url := url, reply := r }] ∧
        ∀ p, (getBucketList w url s).1 = .ok p →
          ∃ rs, r = .response rs ∧ w.xmlDecode rs.Body = .ok p := by
  by_cases hn : w.newRequest url = none
  · right
    cases hres : (getBucketList w url s).1 with
    | ok p =>
      obtain ⟨rs, h1, _, h3⟩ := getBucketList_ok w url s p hres
      exact ⟨.response rs, h1, fun q hq => ⟨rs, rfl, by cases hq; exact h3⟩⟩
    | error e =>
      refine ⟨(w.roundTrip s.srv url).1, ?_, fun q hq => by cases hq⟩
      unfold getBucketList
      simp only [hn, clientDo]
      cases hr : (w.roundTrip s.srv url).1 with
      | failed e => rfl
      | response rs =>
        simp only
        split
        · rfl
        · split <;> rfl
  · left
    unfold getBucketList
    cases hn2 : w.newRequest url with
    | none => exact absurd hn2 hn
    | some e => rfl

/-- Fetching pages that decode records one exchange per page. -/
theorem afterPages_http_length (w : World σ) (cfg : Config) (pages : List ListBucketResult) :
    ∀ (last : ListBucketResult) (s : Sys σ), ServesPages w cfg last s pages →
      (afterPages w cfg last s pages).2.http.length = s.http.length + pages.length := by
  induction pages with
  | nil => intro last s _; simp [afterPages]
  | cons p ps ih =>
    intro last s hs
    obtain ⟨rs, h1, _, _⟩ := getBucketList_ok w (listURL cfg last) s p hs.1
    rw [afterPages, ih _ _ hs.2, h1]
    simp
    omega

/-- The run of the reducer on pages that are all truncated but the last. -/
theorem getAllBucketList_run (w : World σ) (cfg : Config) (s : Sys σ)
    (pages : List ListBucketResult) (final : ListBucketResult) (fuel : Nat)
    (hserve : ServesPages w cfg ListBucketResult.zero s (pages ++ [final]))
    (htrunc : ∀ p ∈ pages, p.IsTruncated = true) (hfinal : final.IsTruncated = false)
    (hfuel : pages.length < fuel) :
    getAllBucketList w cfg fuel s =
      (some (.ok { final with
          Contents := ((pages ++ [final]).map (fun p => p.Contents)).flatten }),
        (afterPages w cfg ListBucketResult.zero s (pages ++ [final])).2) := by
  obtain ⟨k, rfl⟩ : ∃ k, fuel = pages.length + (k + 1) := ⟨fuel - pages.length - 1, by omega⟩
  rw [ServesPages_append] at hserve
  unfold getAllBucketList
  rw [loop_truncated_pages w cfg (k + 1) pages [] _ s hserve.1 htrunc]
  rw [loop_step_final w cfg k _ _ final _ hserve.2.1 hfinal]
  simp [afterPages_append, afterPages]

/-- The exchanges a run of the loop adds form a chain from the page it starts after. -/
theorem loop_urlChain (w : World σ) (cfg : Config) (fuel : Nat) :
    ∀ (acc : List Content) (last : ListBucketResult) (s : Sys σ),
      ∃ new, (getAllBucketListLoop w cfg fuel acc last s).2.http = s.http ++ new ∧
        UrlChain w cfg last new := by
  induction fuel with
  | zero => intro acc last s; exact ⟨[], by simp [getAllBucketListLoop], trivial⟩
  | succ n ih =>
    intro acc last s
    cases hres : (getBucketList w (listURL cfg last) s).1 with
    | error e =>
      rw [loop_step_error w cfg n acc last s e hres]
      rcases getBucketList_http w (listURL cfg last) s with h | ⟨r, h, _⟩
      · exact ⟨[], by simp [h], trivial⟩
      · exact ⟨[{ url := listURL cfg last, reply := r }], h, rfl, Or.inl rfl⟩
    | ok p =>
      obtain ⟨rs, h1, _, h3⟩ := getBucketList_ok w (listURL cfg last) s p hres
      cases ht : p.IsTruncated with
      | false =>
        rw [loop_step_final w cfg n acc last p s hres ht]
        exact ⟨[{ url := listURL cfg last, reply := .response rs }], h1, rfl, Or.inl rfl⟩
      | true =>
        rw [loop_step_truncated w cfg n acc last p s hres ht]
        obtain ⟨new, hn, hc⟩ := ih (acc ++ p.Contents) p (getBucketList w (listURL cfg last) s).2
        refine ⟨{ url := listURL cfg last, reply := .response rs } :: new, ?_, rfl, ?_⟩
        · rw [hn, h1]; simp
        · exact Or.inr ⟨rs, p, rfl, h3, hc⟩

/-- In a chain, the first request is for the URL derived from the starting page. -/
theorem urlChain_head (w : World σ) (cfg : Config) (last : ListBucketResult)
    (new : List Exchange) (h : UrlChain w cfg last new) (e : Exchange)
    (he : new.head? = some e) : e.url = listURL cfg last := by
  cases new with
  | nil => simp at he
  | cons a as =>
    simp only [List.head?_cons, Option.some.injEq] at he
    subst he
    exact h.1

/-- In a chain, each request after the first is for the URL derived from the
page the request before it was answered with. -/
theorem urlChain_next (w : World σ) (cfg : Config) (new : List Exchange) :
    ∀ (last : ListBucketResult), UrlChain w cfg last new →
      ∀ (i : Nat) (e e' : Exchange), new[i]? = some e → new[i + 1]? = some e' →
        ∃ rs p, e.reply = .response rs ∧ w.xmlDecode rs.Body = .ok p ∧
          e'.url = listURL cfg p := by
  induction new with
  | nil => intro last _ i e e' he; simp at he
  | cons a as ih =>
    intro last h i e e' he he'
    rcases h.2 with hnil | ⟨rs, p, hr, hd, hc⟩
    · subst hnil; simp at he'
    · cases i with
      | zero =>
        simp only [List.getElem?_cons_zero, Option.some.injEq] at he
        subst he
        simp only [zero_add, List.getElem?_cons_succ] at he'
        refine ⟨rs, p, hr, hd, ?_⟩
        exact urlChain_head w cfg p as hc e' (by rw [List.head?_eq_getElem?]; exact he')
      | succ j =>
        simp only [List.getElem?_cons_succ] at he he'
        exact ih p hc j e e' he he'

/-- What a call of `getBucketList` adds to the record: the exchange for its URL
when the request can be built, nothing otherwise. -/
theorem getBucketList_http_eq (w : World σ) (url : String) (s : Sys σ) :
    (getBucketList w url s).2.http =
      if w.newRequest url = none then
        s.http ++ [Exchange.mk url (w.roundTrip s.srv url).1]
      else s.http := by
  unfold getBucketList
  cases hn : w.newRequest url with
  | some e => simp
  | none =>
    simp only [clientDo, if_true]
    cases hr : (w.roundTrip s.srv url).1 with
    | failed e => rfl
    | response rs =>
      simp only
      split
      · rfl
      · split <;> rfl

/-- A request that can be built and is answered 200 with a body that decodes
makes `getBucketList` return the decoded page. -/
theorem getBucketList_of_reply (w : World σ) (url : String) (s : Sys σ) (rs : Response)
    (p : ListBucketResult) (hn : w.newRequest url = none)
    (hr : (w.roundTrip s.srv url).1 = .response rs) (hc : rs.StatusCode = 200)
    (hd : w.xmlDecode rs.Body = .ok p) : (getBucketList w url s).1 = .ok p := by
  unfold getBucketList
  simp only [hn, clientDo, hr]
  simp [hc, hd]

/-- A request that cannot be built makes `getBucketList` return an error. -/
theorem getBucketList_of_newRequest (w : World σ) (url : String) (s : Sys σ)
    (hn : w.newRequest url ≠ none) : ∃ err, (getBucketList w url s).1 = .error err := by
  unfold getBucketList
  cases hn2 : w.newRequest url with
  | none => exact absurd hn2 hn
  | some e => exact ⟨e, rfl⟩

theorem eq_append_drop (a b l : List Exchange) (h : l = a ++ b) :
    l = a ++ l.drop a.length := by
  rw [h]
  simp

/-- The record only grows while pages are fetched. -/
theorem afterPages_http_append (w : World σ) (cfg : Config) (pages : List ListBucketResult) :
    ∀ (last : ListBucketResult) (s : Sys σ),
      (afterPages w cfg last s pages).2.http =
        s.http ++ (afterPages w cfg last s pages).2.http.drop s.http.length := by
  induction pages with
  | nil => intro last s; simp [afterPages]
  | cons p ps ih =>
    intro last s
    have h1 := ih p (getBucketList w (listURL cfg last) s).2
    have h2 := getBucketList_http_eq w (listURL cfg last) s
    rw [afterPages]
    split at h2
    · rw [h2, List.append_assoc] at h1
      exact eq_append_drop _ _ _ h1
    · rw [h2] at h1
      exact eq_append_drop _ _ _ h1

/-- The record only grows during a run of the loop. -/
theorem loop_http_append (w : World σ) (cfg : Config) (fuel : Nat) (acc : List Content)
    (last : ListBucketResult) (s : Sys σ) :
    (getAllBucketListLoop w cfg fuel acc last s).2.http =
      s.http ++ (getAllBucketListLoop w cfg fuel acc last s).2.http.drop s.http.length := by
  obtain ⟨new, hnew, _⟩ := loop_urlChain w cfg fuel acc last s
  rw [hnew]
  simp

/-- The loop keeps going: with fuel left and a request that can be built the
next request is issued, at the start and after every truncated page. -/
theorem loop_progress (w : World σ) (cfg : Config) (fuel : Nat) :
    ∀ (acc : List Content) (last : ListBucketResult) (s : Sys σ) (new : List Exchange),
      (getAllBucketListLoop w cfg fuel acc last s).2.http = s.http ++ new →
      (0 < fuel → w.newRequest (listURL cfg last) = none → ∃ e, new.head? = some e) ∧
      ∀ (i : Nat) (e : Exchange) (rs : Response) (p : ListBucketResult),
        new[i]? = some e → e.reply = .response rs → rs.StatusCode = 200 →
        w.xmlDecode rs.Body = .ok p → p.IsTruncated = true → i + 1 < fuel →
        w.newRequest (listURL cfg p) = none → ∃ e', new[i + 1]? = some e' := by
  induction fuel with
  | zero =>
    intro acc last s new hnew
    refine ⟨fun h => absurd h (by omega), ?_⟩
    intro i e rs p _ _ _ _ _ hi
    omega
  | succ n ih =>
    intro acc last s new hnew
    have hhttp := getBucketList_http_eq w (listURL cfg last) s
    by_cases hn : w.newRequest (listURL cfg last) = none
    · simp only [hn, if_true] at hhttp
      cases hres : (getBucketList w (listURL cfg last) s).1 with
      | error err =>
        rw [loop_step_error w cfg n acc last s err hres, hhttp] at hnew
        have hnew' := List.append_cancel_left hnew
        subst hnew'
        refine ⟨fun _ _ => ⟨_, rfl⟩, ?_⟩
        intro i e rs p he hr hc hd _ _ _
        cases i with
        | zero =>
          simp only [List.getElem?_cons_zero, Option.some.injEq] at he
          subst he
          simp only at hr
          have := getBucketList_of_reply w _ s rs p hn hr hc hd
          rw [hres] at this
          cases this
        | succ j => simp at he
      | ok q =>
        cases ht : q.IsTruncated with
        | false =>
          rw [loop_step_final w cfg n acc last q s hres ht, hhttp] at hnew
          have hnew' := List.append_cancel_left hnew
          subst hnew'
          refine ⟨fun _ _ => ⟨_, rfl⟩, ?_⟩
          intro i e rs p he hr hc hd htp _ _
          cases i with
          | zero =>
            simp only [List.getElem?_cons_zero, Option.some.injEq] at he
            subst he
            simp only at hr
            have := getBucketList_of_reply w _ s rs p hn hr hc hd
            rw [hres] at this
            cases this
            rw [ht] at htp
            cases htp
          | succ j => simp at he
        | true =>
          rw [loop_step_truncated w cfg n acc last q s hres ht] at hnew
          obtain ⟨new2, hnew2, _⟩ := loop_urlChain w cfg n (acc ++ q.Contents) q
            (getBucketList w (listURL cfg last) s).2
          have hrest := ih (acc ++ q.Contents) q (getBucketList w (listURL cfg last) s).2
            new2 hnew2
          rw [hnew2, hhttp, List.append_assoc] at hnew
          have hnew' := (List.append_cancel_left hnew).symm
          subst hnew'
          refine ⟨fun _ _ => ⟨_, rfl⟩, ?_⟩
          intro i e rs p he hr hc hd htp hi hnp
          cases i with
          | zero =>
            simp only [List.singleton_append, List.getElem?_cons_zero,
              Option.some.injEq] at he
            subst he
            simp only at hr
            have := getBucketList_of_reply w _ s rs p hn hr hc hd
            rw [hres] at this
            cases this
            obtain ⟨e', he'⟩ := hrest.1 (by omega) hnp
            refine ⟨e', ?_⟩
            simp only [zero_add, List.singleton_append, List.getElem?_cons_succ]
            rw [← List.head?_eq_getElem?]
            exact he'
          | succ j =>
            simp only [List.singleton_append, List.getElem?_cons_succ] at he ⊢
            exact hrest.2 j e rs p he hr hc hd htp (by omega) hnp
    · simp only [hn, if_false] at hhttp
      obtain ⟨err, herr⟩ := getBucketList_of_newRequest w (listURL cfg last) s hn
      rw [loop_step_error w cfg n acc last s err herr, hhttp] at hnew
      have hnew' : new = [] := by
        have := List.append_cancel_left (hnew.symm.trans (List.append_nil _).symm)
        exact this
      subst hnew'
      refine ⟨fun _ h => absurd h hn, ?_⟩
      intro i e rs p he
      simp at he

theorem pageURLs_concat (cfg : Config) (pages : List ListBucketResult) :
    ∀ (last final : ListBucketResult),
      pageURLs cfg last (pages ++ [final]) = listURL cfg last :: pages.map (listURL cfg) := by
  induction pages with
  | nil => intro last final; rfl
  | cons p ps ih =>
    intro last final
    rw [List.cons_append, pageURLs, ih]
    rfl

/-- Fetching pages that decode records the requests for them, one per page, each
for the URL derived from the page before it. -/
theorem afterPages_urls (w : World σ) (cfg : Config) (pages : List ListBucketResult) :
    ∀ (last : ListBucketResult) (s : Sys σ), ServesPages w cfg last s pages →
      ((afterPages w cfg last s pages).2.http.drop s.http.length).map (fun e => e.url) =
        pageURLs cfg last pages := by
  induction pages with
  | nil => intro last s _; simp [afterPages, pageURLs]
  | cons p ps ih =>
    intro last s hs
    obtain ⟨rs, h1, _, _⟩ := getBucketList_ok w (listURL cfg last) s p hs.1
    have h2 := ih p _ hs.2
    have hlen := afterPages_http_length w cfg ps p _ hs.2
    have happ : (afterPages w cfg p (getBucketList w (listURL cfg last) s).2 ps).2.http =
        (getBucketList w (listURL cfg last) s).2.http ++
          (afterPages w cfg p (getBucketList w (listURL cfg last) s).2 ps).2.http.drop
            (getBucketList w (listURL cfg last) s).2.http.length := by
      have := afterPages_http_append w cfg ps p (getBucketList w (listURL cfg last) s).2
      exact this
    rw [afterPages, pageURLs, happ, h1, List.append_assoc, List.drop_left]
    rw [h1] at h2
    simp only [List.singleton_append, List.map_cons]
    rw [h2]

/-! ## Lemmas on the file system -/

theorem FS.put_same (fs : FS) (key : String) (node : Node) : fs.put key node key = some node := by
  simp [FS.put]

theorem FS.put_other (fs : FS) (key q : String) (node : Node) (h : q ≠ key) :
    fs.put key node q = fs q := by
  simp [FS.put, h]

/-- `os.Mkdir` leaves every existing node as it is. -/
theorem osMkdir_frame (fs : FS) (path q : String) (h : fs q ≠ none) :
    (osMkdir fs path).2 q = fs q := by
  unfold osMkdir
  simp only
  split
  · rfl
  · rename_i hk
    split
    · apply FS.put_other
      intro e
      rw [e] at h
      exact h hk
    · rfl
    · rfl

/-- When `os.Mkdir` succeeds the path is a directory afterwards. -/
theorem osMkdir_ok (fs : FS) (path : String) (h : (osMkdir fs path).1 = none) :
    osStat (osMkdir fs path).2 path = some .dir := by
  unfold osMkdir at h ⊢
  simp only at h ⊢
  split
  · rename_i hk; simp [hk] at h
  · rename_i hk
    split
    · exact FS.put_same _ _ _
    · rename_i hd; simp [hk, hd] at h
    · rename_i hd; simp [hk, hd] at h

/-- The recursion of `os.MkdirAll` leaves every existing node as it is. -/
theorem mkdirAllAux_frame (fuel : Nat) :
    ∀ (fs : FS) (path q : String), fs q ≠ none → (mkdirAllAux fuel fs path).2 q = fs q := by
  induction fuel with
  | zero => intro fs path q _; rfl
  | succ n ih =>
    intro fs path q h
    unfold mkdirAllAux
    split
    · rfl
    · rfl
    · simp only
      have hpar : ∀ r : Option String × FS,
          (if (parentPart path).length > 0 then mkdirAllAux n fs (parentPart path)
            else (none, fs)) = r → r.2 q = fs q := by
        intro r hr
        rw [← hr]
        split
        · exact ih fs _ q h
        · rfl
      split
      · rename_i err fs1 heq
        exact hpar _ heq
      · rename_i fs1 heq
        have h1 : fs1 q = fs q := hpar _ heq
        have h1' : fs1 q ≠ none := by rw [h1]; exact h
        have h2 := osMkdir_frame fs1 path q h1'
        split
        · rename_i fs2 hm
          rw [hm] at h2
          exact h2.trans h1
        · rename_i err fs2 hm
          rw [hm] at h2
          split <;> exact h2.trans h1

/-- When the recursion of `os.MkdirAll` succeeds the path is a directory afterwards. -/
theorem mkdirAllAux_ok (fuel : Nat) :
    ∀ (fs : FS) (path : String), (mkdirAllAux fuel fs path).1 = none →
      osStat (mkdirAllAux fuel fs path).2 path = some .dir := by
  induction fuel with
  | zero => intro fs path h; simp [mkdirAllAux] at h
  | succ n ih =>
    intro fs path h
    unfold mkdirAllAux at h ⊢
    split
    · rename_i hs; exact hs
    · rename_i hs; simp [hs] at h
    · rename_i hs
      simp only [hs] at h
      simp only at h ⊢
      split
      · rename_i err fs1 heq
        simp [heq] at h
      · rename_i fs1 heq
        simp only [heq] at h
        split
        · rename_i fs2 hm
          have := osMkdir_ok fs1 path (by rw [hm])
          rw [hm] at this
          exact this
        · rename_i err fs2 hm
          simp only [hm] at h
          split
          · rename_i hd; exact hd
          · rename_i hnd
            split at h
            · rename_i hd; exact absurd hd (hnd)
            · simp at h

/-- `os.MkdirAll` leaves every existing node as it is. -/
theorem osMkdirAll_frame (fs : FS) (path q : String) (h : fs q ≠ none) :
    (osMkdirAll fs path).2 q = fs q :=
  mkdirAllAux_frame _ fs path q h

/-- When `os.MkdirAll` succeeds the path is a directory afterwards. -/
theorem osMkdirAll_ok (fs : FS) (path : String) (h : (osMkdirAll fs path).1 = none) :
    osStat (osMkdirAll fs path).2 path = some .dir :=
  mkdirAllAux_ok _ fs path h

/-- What `os.Create` does to the tree: nothing when it fails, and when it
succeeds an empty file is put at the path, which held no directory before. -/
theorem osCreate_cases (fs : FS) (path : String) :
    ((osCreate fs path).1 ≠ none ∧ (osCreate fs path).2 = fs) ∨
      ((osCreate fs path).1 = none ∧
        (osCreate fs path).2 = fs.put (filepathClean path) (.file "") ∧
        fs (filepathClean path) ≠ some .dir) := by
  unfold osCreate
  simp only
  split
  · left; exact ⟨by simp, rfl⟩
  · rename_i d hk; right; exact ⟨rfl, rfl, by simp [hk]⟩
  · rename_i hk
    split
    · right; exact ⟨rfl, rfl, by simp [hk]⟩
    · left; exact ⟨by simp, rfl⟩
    · left; exact ⟨by simp, rfl⟩

/-- Files stay files under `os.Create`. -/
theorem osCreate_isFile (fs : FS) (path q : String) (h : IsFile fs q) :
    IsFile (osCreate fs path).2 q := by
  rcases osCreate_cases fs path with ⟨_, h2⟩ | ⟨_, h2, _⟩
  · rw [h2]; exact h
  · rw [h2]
    by_cases e : q = filepathClean path
    · exact ⟨"", by rw [e]; exact FS.put_same _ _ _⟩
    · obtain ⟨d, hd⟩ := h
      exact ⟨d, by rw [FS.put_other _ _ _ _ e]; exact hd⟩

/-- Files stay files under `os.MkdirAll`. -/
theorem osMkdirAll_isFile (fs : FS) (path q : String) (h : IsFile fs q) :
    IsFile (osMkdirAll fs path).2 q := by
  obtain ⟨d, hd⟩ := h
  exact ⟨d, by rw [osMkdirAll_frame fs path q (by simp [hd])]; exact hd⟩

/-- Files stay files when a body is written to a file. -/
theorem fileReadFrom_isFile (fs : FS) (path q : String) (body : Body) (h : IsFile fs q) :
    IsFile (fileReadFrom fs path body).2 q := by
  unfold fileReadFrom
  by_cases e : q = filepathClean path
  · exact ⟨body.data, by rw [e]; exact FS.put_same _ _ _⟩
  · obtain ⟨d, hd⟩ := h
    exact ⟨d, by simp only; rw [FS.put_other _ _ _ _ e]; exact hd⟩

/-! ## Lemmas on the download coordinator -/

/-- The call `client.Do` does not touch the file tree. -/
theorem clientDo_fs (w : World σ) (url : String) (s : Sys σ) (r : Reply) (s1 : Sys σ)
    (h : clientDo w url s = (r, s1)) : s1.fs = s.fs := by
  have : s1 = (clientDo w url s).2 := by rw [h]
  rw [this]
  rfl

/-- Files stay files under `getContent`, whatever its outcome. -/
theorem getContent_isFile (w : World σ) (cfg : Config) (key : String) (s : Sys σ)
    (q : String) (h : IsFile s.fs q) : IsFile (getContent w cfg key s).2.fs q := by
  unfold getContent
  simp only
  split
  · exact h
  · split
    · rename_i heq; rw [clientDo_fs w _ s _ _ heq]; exact h
    · rename_i rs s1 heq
      have h1 : IsFile s1.fs q := by rw [clientDo_fs w _ s _ _ heq]; exact h
      split
      · exact h1
      · have h2 := osMkdirAll_isFile s1.fs
          (filepathDir (filepathJoin [cfg.dataFolder, key])) q h1
        split
        · rename_i hm; rw [hm] at h2; exact h2
        · rename_i fs1 hm
          rw [hm] at h2
          have h3 := osCreate_isFile fs1 (filepathJoin [cfg.dataFolder, key]) q h2
          split
          · rename_i hcr; rw [hcr] at h3; exact h3
          · rename_i fs2 hcr
            rw [hcr] at h3
            have h4 := fileReadFrom_isFile fs2 (filepathJoin [cfg.dataFolder, key]) q rs.Body h3
            split
            · rename_i hw; rw [hw] at h4; exact h4
            · rename_i hw; rw [hw] at h4; exact h4

/-- When `getContent` returns no error, there is a file at the joined path
holding what the body of a response recorded for the object's URL yielded. -/
theorem getContent_ok_file (w : World σ) (cfg : Config) (key : String) (s : Sys σ)
    (h : (getContent w cfg key s).1 = none) :
    ∃ rs, (getContent w cfg key s).2.http =
        s.http ++ [{ url := cfg.storageURL ++ cfg.bucketName ++ "/" ++ key,
                     reply := .response rs }] ∧
      rs.StatusCode = 200 ∧
      osStat (getContent w cfg key s).2.fs (filepathJoin [cfg.dataFolder, key]) =
        some (.file rs.Body.data) := by
  unfold getContent at h ⊢
  simp only at h ⊢
  split
  · rename_i hn; simp [hn] at h
  · rename_i hn
    simp only [hn] at h
    split
    · rename_i heq; simp [heq] at h
    · rename_i rs s1 heq
      simp only [heq] at h
      have hs1 : s1.http = s.http ++
          [Exchange.mk (cfg.storageURL ++ cfg.bucketName ++ "/" ++ key) (.response rs)] := by
        have e : s1 = (clientDo w (cfg.storageURL ++ cfg.bucketName ++ "/" ++ key) s).2 := by
          rw [heq]
        have e1 : (clientDo w (cfg.storageURL ++ cfg.bucketName ++ "/" ++ key) s).1 =
            .response rs := by rw [heq]
        rw [e]
        simp only [clientDo] at e1 ⊢
        rw [e1]
      split
      · rename_i hc; simp [hc] at h
      · rename_i hc
        simp only [hc] at h
        split
        · rename_i hm; simp [hm] at h
        · rename_i fs1 hm
          simp only [hm] at h
          split
          · rename_i hcr; simp [hcr] at h
          · rename_i fs2 hcr
            simp only [hcr] at h
            split
            · rename_i hw; simp [hw] at h
            · rename_i fs3 hw
              refine ⟨rs, hs1, by simpa using hc, ?_⟩
              have : fs3 = (fileReadFrom fs2 (filepathJoin [cfg.dataFolder, key]) rs.Body).2 := by
                rw [hw]
              rw [this]
              exact FS.put_same _ _ _

/-- Files stay files under a download unit. -/
theorem downloadUnit_isFile (w : World σ) (cfg : Config) (content : Content) (s : Sys σ)
    (q : String) (h : IsFile s.fs q) : IsFile (downloadUnit w cfg content s).2.fs q := by
  unfold downloadUnit
  split
  · exact h
  · exact getContent_isFile w cfg _ s q h

theorem finalState_cons (w : World σ) (cfg : Config) (c : Content) (cs : List Content)
    (s : Sys σ) :
    finalState w cfg (c :: cs) s = finalState w cfg cs (downloadUnit w cfg c s).2 := rfl

/-- Files stay files until the end of a run. -/
theorem finalState_isFile (w : World σ) (cfg : Config) (contents : List Content) :
    ∀ (s : Sys σ) (q : String), IsFile s.fs q → IsFile (finalState w cfg contents s).fs q := by
  induction contents with
  | nil => intro s q h; exact h
  | cons c cs ih =>
    intro s q h
    rw [finalState_cons]
    exact ih _ q (downloadUnit_isFile w cfg c s q h)

/-- The fold of `downloadPhase`, started with any group: the group keeps its
error if it has one and takes the first error of the units otherwise, and the
state is the one the units leave. -/
theorem downloadFold (w : World σ) (cfg : Config) (contents : List Content) :
    ∀ (g : Group) (s : Sys σ),
      contents.foldl
          (fun (acc : Group × Sys σ) content => acc.1.Go (downloadUnit w cfg content) acc.2)
          (g, s) =
        ({ err := match g.err with
            | some err => some err
            | none => firstError (runUnits w cfg contents s) },
          finalState w cfg contents s) := by
  induction contents with
  | nil =>
    intro g s
    cases g with
    | mk e => cases e <;> simp [finalState, runUnits, firstError]
  | cons c cs ih =>
    intro g s
    rw [List.foldl_cons, finalState_cons]
    have hgo : g.Go (downloadUnit w cfg c) s =
        ({ err := match g.err with
            | some err => some err
            | none => (downloadUnit w cfg c s).1 }, (downloadUnit w cfg c s).2) := by
      unfold Group.Go
      cases g with
      | mk e =>
        cases e with
        | none => cases h : (downloadUnit w cfg c s).1 <;> simp [h]
        | some e0 => cases h : (downloadUnit w cfg c s).1 <;> simp [h]
    rw [hgo, ih]
    cases g with
    | mk e =>
      cases e with
      | some e0 => simp
      | none =>
        simp only [runUnits, firstError]

/-- The download phase returns the first error of its units and leaves the state
the units leave. -/
theorem downloadPhase_eq (w : World σ) (cfg : Config) (contents : List Content) (s : Sys σ) :
    downloadPhase w cfg contents s =
      (firstError (runUnits w cfg contents s), finalState w cfg contents s) := by
  unfold downloadPhase
  simp only [downloadFold, Group.Wait]

/-- The first error is `none` exactly when no unit returned an error. -/
theorem firstError_eq_none (rs : List (Option String × Sys σ)) :
    firstError rs = none ↔ ∀ r ∈ rs, r.1 = none := by
  induction rs with
  | nil => simp [firstError]
  | cons r rest ih =>
    unfold firstError
    cases h : r.1 with
    | none => simp [h, ih]
    | some e => simp [h]

/-- The i-th unit of a run is the download unit of the i-th entry, run in the
state the units before it left. -/
theorem runUnits_getElem (w : World σ) (cfg : Config) (contents : List Content) :
    ∀ (s : Sys σ) (i : Nat) (c : Content) (r : Option String × Sys σ),
      contents[i]? = some c → (runUnits w cfg contents s)[i]? = some r →
        r = downloadUnit w cfg c (finalState w cfg (contents.take i) s) ∧
          finalState w cfg contents s = finalState w cfg (contents.drop (i + 1)) r.2 := by
  induction contents with
  | nil => intro s i c r hc; simp at hc
  | cons d ds ih =>
    intro s i c r hc hr
    cases i with
    | zero =>
      simp only [List.getElem?_cons_zero, Option.some.injEq] at hc
      simp only [runUnits, List.getElem?_cons_zero, Option.some.injEq] at hr
      subst hc
      subst hr
      exact ⟨by simp [finalState], by simp [finalState]⟩
    | succ j =>
      simp only [List.getElem?_cons_succ] at hc
      simp only [runUnits, List.getElem?_cons_succ] at hr
      obtain ⟨h1, h2⟩ := ih _ j c r hc hr
      refine ⟨?_, ?_⟩
      · rw [h1]; simp [finalState_cons]
      · rw [finalState_cons, h2]; simp

/-- The units of a run are as many as the entries. -/
theorem runUnits_length (w : World σ) (cfg : Config) (contents : List Content) :
    ∀ (s : Sys σ), (runUnits w cfg contents s).length = contents.length := by
  induction contents with
  | nil => intro s; rfl
  | cons c cs ih => intro s; simp [runUnits, ih]

/-- The run of `getContent` when the request succeeds with status 200, the body
is read to its end and the file system calls do not fail. -/
theorem getContent_eq_ok (w : World σ) (cfg : Config) (key : String) (s : Sys σ)
    (rs : Response) (B : String)
    (hreq : w.newRequest (cfg.storageURL ++ cfg.bucketName ++ "/" ++ key) = none)
    (hget : (w.roundTrip s.srv (cfg.storageURL ++ cfg.bucketName ++ "/" ++ key)).1 =
      .response rs)
    (hstatus : rs.StatusCode = 200)
    (hbody : rs.Body = { data := B, readErr := none })
    (hmkdir : (osMkdirAll s.fs (filepathDir (filepathJoin [cfg.dataFolder, key]))).1 = none)
    (hcreate : (osCreate (osMkdirAll s.fs (filepathDir (filepathJoin [cfg.dataFolder, key]))).2
      (filepathJoin [cfg.dataFolder, key])).1 = none) :
    getContent w cfg key s =
      (none, { (clientDo w (cfg.storageURL ++ cfg.bucketName ++ "/" ++ key) s).2 with
        fs := ((osCreate (osMkdirAll s.fs (filepathDir (filepathJoin [cfg.dataFolder, key]))).2
          (filepathJoin [cfg.dataFolder, key])).2).put
            (filepathClean (filepathJoin [cfg.dataFolder, key])) (.file B) }) := by
  have hdo : clientDo w (cfg.storageURL ++ cfg.bucketName ++ "/" ++ key) s =
      (.response rs, (clientDo w (cfg.storageURL ++ cfg.bucketName ++ "/" ++ key) s).2) :=
    Prod.ext hget rfl
  have hfs : (clientDo w (cfg.storageURL ++ cfg.bucketName ++ "/" ++ key) s).2.fs = s.fs := rfl
  have hm : osMkdirAll s.fs (filepathDir (filepathJoin [cfg.dataFolder, key])) =
      (none, (osMkdirAll s.fs (filepathDir (filepathJoin [cfg.dataFolder, key]))).2) :=
    Prod.ext hmkdir rfl
  have hc : osCreate (osMkdirAll s.fs (filepathDir (filepathJoin [cfg.dataFolder, key]))).2
      (filepathJoin [cfg.dataFolder, key]) =
      (none, (osCreate (osMkdirAll s.fs (filepathDir (filepathJoin [cfg.dataFolder, key]))).2
        (filepathJoin [cfg.dataFolder, key])).2) :=
    Prod.ext hcreate rfl
  unfold getContent
  simp only [hreq]
  rw [hdo]
  simp only [hstatus, hfs]
  rw [hm]
  simp only
  rw [hc]
  simp [fileReadFrom, hbody]

/-! ## Lemmas on paths -/

theorem splitSlash_exists (cs : List Char) : ∃ seg segs, splitSlash cs = seg :: segs := by
  cases cs with
  | nil => exact ⟨[], [], rfl⟩
  | cons c cs =>
    unfold splitSlash
    split
    · exact ⟨_, _, rfl⟩
    · split
      · exact ⟨_, _, rfl⟩
      · exact ⟨_, _, rfl⟩

theorem splitSlash_cons_slash (cs : List Char) : splitSlash ('/' :: cs) = [] :: splitSlash cs := by
  simp [splitSlash]

theorem splitSlash_cons_other (c : Char) (cs seg : List Char) (segs : List (List Char))
    (hc : c ≠ '/') (hs : splitSlash cs = seg :: segs) :
    splitSlash (c :: cs) = (c :: seg) :: segs := by
  rw [splitSlash]
  simp [hc, hs]

/-- Splitting a path at one of its slashes splits its list of elements. -/
theorem splitSlash_append (a b : List Char) :
    splitSlash (a ++ '/' :: b) = splitSlash a ++ splitSlash b := by
  induction a with
  | nil => simp [splitSlash]
  | cons c a ih =>
    by_cases hc : c = '/'
    · subst hc
      rw [List.cons_append, splitSlash_cons_slash, splitSlash_cons_slash, ih]
      rfl
    · obtain ⟨seg, segs, hs⟩ := splitSlash_exists a
      rw [List.cons_append, splitSlash_cons_other c a seg segs hc hs,
        splitSlash_cons_other c (a ++ '/' :: b) seg (segs ++ splitSlash b) hc (by rw [ih, hs]; rfl)]
      rfl

/-- The elements of a path contain no slash. -/
theorem splitSlash_noSlash (cs : List Char) : ∀ seg ∈ splitSlash cs, '/' ∉ seg := by
  induction cs with
  | nil => intro seg h; simp [splitSlash] at h; simp [h]
  | cons c cs ih =>
    intro seg h
    by_cases hc : c = '/'
    · subst hc
      rw [splitSlash_cons_slash] at h
      rcases List.mem_cons.1 h with h | h
      · simp [h]
      · exact ih seg h
    · obtain ⟨s0, segs, hs⟩ := splitSlash_exists cs
      rw [splitSlash_cons_other c cs s0 segs hc hs] at h
      rw [hs] at ih
      rcases List.mem_cons.1 h with h | h
      · subst h
        have := ih s0 (by simp)
        simp [this, Ne.symm hc]
      · exact ih seg (by simp [h])

theorem joinSlash_cons_cons (seg s2 : List Char) (rest : List (List Char)) :
    joinSlash (seg :: s2 :: rest) = seg ++ '/' :: joinSlash (s2 :: rest) := rfl

theorem joinSlash_cons_char (c : Char) (seg : List Char) (segs : List (List Char)) :
    joinSlash ((c :: seg) :: segs) = c :: joinSlash (seg :: segs) := by
  cases segs with
  | nil => rfl
  | cons s2 rest => rfl

/-- Joining the elements of a path gives the path back. -/
theorem joinSlash_splitSlash (cs : List Char) : joinSlash (splitSlash cs) = cs := by
  induction cs with
  | nil => rfl
  | cons c cs ih =>
    obtain ⟨seg, segs, hs⟩ := splitSlash_exists cs
    by_cases hc : c = '/'
    · subst hc
      rw [splitSlash_cons_slash, hs, joinSlash_cons_cons, ← hs, ih]
      rfl
    · rw [splitSlash_cons_other c cs seg segs hc hs, joinSlash_cons_char, ← hs, ih]

/-- A stretch without a slash is its own only element. -/
theorem splitSlash_of_noSlash (seg : List Char) (h : '/' ∉ seg) : splitSlash seg = [seg] := by
  induction seg with
  | nil => rfl
  | cons c cs ih =>
    have hc : c ≠ '/' := by
      intro e
      exact h (by simp [e])
    have hcs : '/' ∉ cs := by
      intro e
      exact h (by simp [e])
    exact splitSlash_cons_other c cs cs [] hc (ih hcs)

/-- Splitting what was joined from slash-free elements gives the elements back. -/
theorem splitSlash_joinSlash (segs : List (List Char)) (hne : segs ≠ [])
    (h : ∀ seg ∈ segs, '/' ∉ seg) : splitSlash (joinSlash segs) = segs := by
  induction segs with
  | nil => exact absurd rfl hne
  | cons seg rest ih =>
    cases rest with
    | nil => exact splitSlash_of_noSlash seg (h seg (by simp))
    | cons s2 rest2 =>
      rw [joinSlash_cons_cons, splitSlash_append, splitSlash_of_noSlash seg (h seg (by simp)),
        ih (by simp) (fun s hs => h s (by simp [hs]))]
      rfl

/-- Joining is injective on non-empty lists of slash-free elements. -/
theorem joinSlash_injective (a b : List (List Char)) (ha : a ≠ []) (hb : b ≠ [])
    (hsa : ∀ seg ∈ a, '/' ∉ seg) (hsb : ∀ seg ∈ b, '/' ∉ seg)
    (h : joinSlash a = joinSlash b) : a = b := by
  rw [← splitSlash_joinSlash a ha hsa, ← splitSlash_joinSlash b hb hsb, h]

/-- Every element `cleanStep` leaves is one it found or the one it read. -/
theorem cleanStep_mem (rooted : Bool) (out : List (List Char)) (seg x : List Char)
    (h : x ∈ cleanStep rooted out seg) : x ∈ out ∨ x = seg := by
  unfold cleanStep at h
  split at h
  · exact Or.inl h
  · split at h
    · split at h
      · split at h
        · split at h
          · exact Or.inl h
          · simpa using h
        · exact Or.inl (List.mem_of_mem_dropLast h)
      · split at h
        · exact Or.inl h
        · simpa using h
    · simpa using h

/-- Reading slash-free elements leaves slash-free elements. -/
theorem foldl_cleanStep_noSlash (rooted : Bool) (segs : List (List Char)) :
    ∀ (out : List (List Char)), (∀ seg ∈ out, '/' ∉ seg) → (∀ seg ∈ segs, '/' ∉ seg) →
      ∀ seg ∈ segs.foldl (cleanStep rooted) out, '/' ∉ seg := by
  induction segs with
  | nil => intro out ho _; exact ho
  | cons s rest ih =>
    intro out ho hs
    rw [List.foldl_cons]
    apply ih
    · intro x hx
      rcases cleanStep_mem rooted out s x hx with h | h
      · exact ho x h
      · rw [h]; exact hs s (by simp)
    · intro x hx
      exact hs x (by simp [hx])

/-- The elements `Clean` keeps contain no slash. -/
theorem cleanSegs_noSlash (rooted : Bool) (cs : List Char) :
    ∀ seg ∈ cleanSegs rooted cs, '/' ∉ seg :=
  foldl_cleanStep_noSlash rooted _ [] (by simp) (splitSlash_noSlash cs)

/-- Elements that are neither empty nor `.` nor `..` are written one after the other. -/
theorem foldl_cleanStep_normal (rooted : Bool) (segs : List (List Char)) :
    ∀ (out : List (List Char)),
      (∀ seg ∈ segs, seg ≠ [] ∧ seg ≠ ['.'] ∧ seg ≠ ['.', '.']) →
      segs.foldl (cleanStep rooted) out = out ++ segs := by
  induction segs with
  | nil => intro out _; simp
  | cons s rest ih =>
    intro out h
    obtain ⟨h1, h2, h3⟩ := h s (by simp)
    rw [List.foldl_cons]
    have : cleanStep rooted out s = out ++ [s] := by
      unfold cleanStep
      simp [h1, h2, h3]
    rw [this, ih _ (fun x hx => h x (by simp [hx]))]
    simp

theorem string_eq_empty_iff (d : String) : d = "" ↔ d.data = [] := by
  constructor
  · intro h; rw [h]
  · intro h
    cases d with
    | mk data =>
      simp only at h
      rw [h]

theorem cleanKey_iff (key : String) :
    cleanKey key = true ↔
      ∀ seg ∈ splitSlash key.data, seg ≠ [] ∧ seg ≠ ['.'] ∧ seg ≠ ['.', '.'] := by
  unfold cleanKey
  simp [List.all_eq_true]

/-- A key made of proper elements is not empty and does not start with a slash. -/
theorem cleanKey_head (key : String) (h : cleanKey key = true) :
    key.data ≠ [] ∧ key.data.head? ≠ some '/' := by
  rw [cleanKey_iff] at h
  constructor
  · intro e
    rw [e] at h
    exact (h [] (by simp [splitSlash])).1 rfl
  · intro e
    cases hk : key.data with
    | nil => rw [hk] at e; simp at e
    | cons c cs =>
      rw [hk] at e h
      simp only [List.head?_cons, Option.some.injEq] at e
      subst e
      rw [splitSlash_cons_slash] at h
      exact (h [] (by simp)).1 rfl

/-- `Clean` leaves a key made of proper elements as it is. -/
theorem filepathClean_cleanKey (key : String) (h : cleanKey key = true) :
    filepathClean key = key := by
  obtain ⟨hne, hhead⟩ := cleanKey_head key h
  have hk : key ≠ "" := fun e => hne ((string_eq_empty_iff key).1 e)
  have hsegs : cleanSegs false key.data = splitSlash key.data := by
    unfold cleanSegs
    rw [foldl_cleanStep_normal false _ [] ((cleanKey_iff key).1 h)]
    rfl
  unfold filepathClean
  simp only [hk, if_false, hhead, decide_False, Bool.false_eq_true]
  rw [hsegs]
  obtain ⟨seg, segs, hs⟩ := splitSlash_exists key.data
  simp only [hs, reduceCtorEq, if_false]
  rw [← hs, joinSlash_splitSlash]

/-- `Clean` on a non-empty folder joined with a key made of proper elements: the
elements kept of the folder followed by the elements of the key. -/
theorem filepathClean_folder_key (d key : String) (hd : d ≠ "") (h : cleanKey key = true) :
    (filepathClean (d ++ "/" ++ key)).data =
      if d.data.head? = some '/' then
        '/' :: joinSlash (cleanSegs true d.data ++ splitSlash key.data)
      else joinSlash (cleanSegs false d.data ++ splitSlash key.data) := by
  have hdata : (d ++ "/" ++ key).data = d.data ++ '/' :: key.data := by
    simp [String.data_append]
  have hdne : d.data ≠ [] := fun e => hd ((string_eq_empty_iff d).2 e)
  have hne : d ++ "/" ++ key ≠ "" := by
    intro e
    have := (string_eq_empty_iff _).1 e
    rw [hdata] at this
    simp at this
  have hhead : (d.data ++ '/' :: key.data).head? = d.data.head? := by
    cases hdd : d.data with
    | nil => exact absurd hdd hdne
    | cons c cs => rfl
  have hsegs : ∀ r : Bool, cleanSegs r (d.data ++ '/' :: key.data) =
      cleanSegs r d.data ++ splitSlash key.data := by
    intro r
    unfold cleanSegs
    rw [splitSlash_append, List.foldl_append,
      foldl_cleanStep_normal r _ _ ((cleanKey_iff key).1 h)]
  obtain ⟨seg, segs, hs⟩ := splitSlash_exists key.data
  unfold filepathClean
  simp only [hne, if_false, hdata, hhead]
  by_cases hr : d.data.head? = some '/'
  · simp [hr, hsegs]
  · simp [hr, hsegs, hs]

/-- The joined paths of two keys made of proper elements are equal only if the
keys are. -/
theorem filepathJoin_cleanKey_inj (d k1 k2 : String) (h1 : cleanKey k1 = true)
    (h2 : cleanKey k2 = true) (h : filepathJoin [d, k1] = filepathJoin [d, k2]) : k1 = k2 := by
  have hk1 : k1 ≠ "" := fun e => (cleanKey_head k1 h1).1 ((string_eq_empty_iff k1).1 e)
  have hk2 : k2 ≠ "" := fun e => (cleanKey_head k2 h2).1 ((string_eq_empty_iff k2).1 e)
  by_cases hd : d = ""
  · subst hd
    have e1 : filepathJoin ["", k1] = filepathClean k1 := by
      simp [filepathJoin, stringsJoin, hk1]
    have e2 : filepathJoin ["", k2] = filepathClean k2 := by
      simp [filepathJoin, stringsJoin, hk2]
    rw [e1, e2, filepathClean_cleanKey k1 h1, filepathClean_cleanKey k2 h2] at h
    exact h
  · have e1 : filepathJoin [d, k1] = filepathClean (d ++ "/" ++ k1) := by
      simp [filepathJoin, stringsJoin, hd]
    have e2 : filepathJoin [d, k2] = filepathClean (d ++ "/" ++ k2) := by
      simp [filepathJoin, stringsJoin, hd]
    rw [e1, e2] at h
    have hdata := congrArg String.data h
    rw [filepathClean_folder_key d k1 hd h1, filepathClean_folder_key d k2 hd h2] at hdata
    obtain ⟨s1, r1, hs1⟩ := splitSlash_exists k1.data
    obtain ⟨s2, r2, hs2⟩ := splitSlash_exists k2.data
    have hjoin : ∀ r : Bool,
        joinSlash (cleanSegs r d.data ++ splitSlash k1.data) =
          joinSlash (cleanSegs r d.data ++ splitSlash k2.data) →
        splitSlash k1.data = splitSlash k2.data := by
      intro r hj
      have := joinSlash_injective _ _ (by simp [hs1]) (by simp [hs2])
        (fun seg hseg => by
          rcases List.mem_append.1 hseg with hm | hm
          · exact cleanSegs_noSlash r d.data seg hm
          · exact splitSlash_noSlash k1.data seg hm)
        (fun seg hseg => by
          rcases List.mem_append.1 hseg with hm | hm
          · exact cleanSegs_noSlash r d.data seg hm
          · exact splitSlash_noSlash k2.data seg hm) hj
      exact List.append_cancel_left this
    have hsplit : splitSlash k1.data = splitSlash k2.data := by
      by_cases hr : d.data.head? = some '/'
      · simp only [hr, if_true, List.cons.injEq, true_and] at hdata
        exact hjoin true hdata
      · simp only [hr, if_false] at hdata
        exact hjoin false hdata
    have : k1.data = k2.data := by
      rw [← joinSlash_splitSlash k1.data, ← joinSlash_splitSlash k2.data, hsplit]
    exact String.ext this

/-- What `main` runs with as data folder does not depend on the command line. -/
theorem mainFlags_dataFolder (argv : List String) (cfg : Config)
    (h : mainFlags argv = .ok cfg) : cfg.dataFolder = "./data" := by
  unfold mainFlags at h
  simp only at h
  split at h
  · cases h
  · simp only [Except.ok.injEq] at h
    rw [← h]
    rfl

theorem dropWhile_length_le (p : Char → Bool) (l : List Char) :
    (l.dropWhile p).length ≤ l.length := by
  induction l with
  | nil => simp
  | cons c cs ih =>
    rw [List.dropWhile_cons]
    split
    · simp; omega
    · simp

/-- The parent `os.MkdirAll` recurses on is shorter than the path. -/
theorem parentPart_length (path : String) (h : (parentPart path).length > 0) :
    (parentPart path).length < path.length := by
  unfold parentPart at h ⊢
  simp only [String.length, List.length_reverse] at h ⊢
  cases hr : path.data.reverse with
  | nil => rw [hr] at h; simp at h
  | cons c cs =>
    have hlen : path.data.length = cs.length + 1 := by
      have := congrArg List.length hr
      simpa using this
    rw [hlen]
    by_cases hc : c = '/'
    · subst hc
      rw [List.dropWhile_cons]
      simp only [beq_self_eq_true, if_true]
      have h1 := dropWhile_length_le (fun c => c != '/') (cs.dropWhile (fun c => c == '/'))
      have h2 := dropWhile_length_le (fun c => c == '/') cs
      omega
    · have e : (c :: cs).dropWhile (fun c => c == '/') = c :: cs := by
        rw [List.dropWhile_cons]
        simp [hc]
      rw [e, List.dropWhile_cons]
      simp only [bne_iff_ne, ne_eq, hc, not_false_eq_true, decide_True, if_true]
      have h1 := dropWhile_length_le (fun c => c != '/') cs
      omega

/-- The recursion of `os.MkdirAll` never runs out of fuel when given more than
the length of the path: more fuel changes nothing. -/
theorem mkdirAllAux_fuel (fuel : Nat) :
    ∀ (fuel' : Nat) (fs : FS) (path : String), path.length < fuel → path.length < fuel' →
      mkdirAllAux fuel fs path = mkdirAllAux fuel' fs path := by
  induction fuel with
  | zero => intro fuel' fs path h; omega
  | succ n ih =>
    intro fuel' fs path h h'
    cases fuel' with
    | zero => omega
    | succ m =>
      unfold mkdirAllAux
      by_cases hp : (parentPart path).length > 0
      · have hlt := parentPart_length path hp
        have e := ih m fs (parentPart path) (by omega) (by omega)
        simp only [e]
      · simp only [hp, if_false]

/-- The function `os.MkdirAll` is its recursion run with any sufficient fuel. -/
theorem osMkdirAll_eq (fs : FS) (path : String) (fuel : Nat) (h : path.length < fuel) :
    osMkdirAll fs path = mkdirAllAux fuel fs path :=
  mkdirAllAux_fuel _ fuel fs path (by omega) h

theorem cleanShape_nil (rooted : Bool) : CleanShape rooted [] :=
  ⟨0, [], rfl, by simp, fun _ => rfl⟩

/-- Reading one more element keeps the shape. -/
theorem cleanStep_shape (rooted : Bool) (out : List (List Char)) (seg : List Char)
    (h : CleanShape rooted out) : CleanShape rooted (cleanStep rooted out seg) := by
  obtain ⟨k, names, hout, hnames, hk⟩ := h
  unfold cleanStep
  split
  · exact ⟨k, names, hout, hnames, hk⟩
  · rename_i h1
    split
    · rename_i h2
      subst h2
      rcases List.eq_nil_or_concat names with hn | ⟨names', x, hn⟩
      · subst hn
        simp only [List.append_nil] at hout
        cases k with
        | zero =>
          simp only [List.replicate_zero] at hout
          subst hout
          simp only [List.getLast?_nil]
          cases rooted with
          | true => exact cleanShape_nil true
          | false => exact ⟨1, [], rfl, by simp, by simp⟩
        | succ j =>
          have hr : rooted = false := by
            cases rooted with
            | false => rfl
            | true => exact absurd (hk rfl) (by simp)
          subst hr
          have hlast : out.getLast? = some ['.', '.'] := by
            rw [hout, List.replicate_succ', List.getLast?_append]
            simp
          rw [hlast]
          simp only [if_true, Bool.false_eq_true, if_false]
          refine ⟨j + 2, [], ?_, by simp, by simp⟩
          rw [hout, List.append_nil, ← List.replicate_succ' (j + 1)]
      · subst hn
        have hx := hnames x (by simp)
        have hout' : out = (List.replicate k ['.', '.'] ++ names') ++ [x] := by
          rw [hout, List.concat_eq_append, List.append_assoc]
        have hlast : out.getLast? = some x := by
          rw [hout', List.getLast?_append]
          simp
        rw [hlast]
        simp only [hx.2.2, if_false]
        refine ⟨k, names', ?_, fun s hs => hnames s (by simp [hs]), hk⟩
        rw [hout', List.dropLast_concat]
    · rename_i h2
      refine ⟨k, names ++ [seg], by rw [hout, List.append_assoc], ?_, hk⟩
      intro s hs
      rcases List.mem_append.1 hs with hm | hm
      · exact hnames s hm
      · simp only [List.mem_singleton] at hm
        subst hm
        exact ⟨fun e => h1 (Or.inl e), fun e => h1 (Or.inr e), h2⟩

theorem foldl_cleanStep_shape (rooted : Bool) (segs : List (List Char)) :
    ∀ (out : List (List Char)), CleanShape rooted out →
      CleanShape rooted (segs.foldl (cleanStep rooted) out) := by
  induction segs with
  | nil => intro out h; exact h
  | cons s rest ih =>
    intro out h
    exact ih _ (cleanStep_shape rooted out s h)

/-- What `Clean` keeps of a path has the shape. -/
theorem cleanSegs_shape (rooted : Bool) (cs : List Char) : CleanShape rooted (cleanSegs rooted cs) :=
  foldl_cleanStep_shape rooted _ [] (cleanShape_nil rooted)

/-- Reading `..` elements at the start of an unrooted path writes them. -/
theorem foldl_cleanStep_dotdots (k : Nat) :
    ∀ (j : Nat) (rest : List (List Char)),
      (List.replicate k ['.', '.'] ++ rest).foldl (cleanStep false)
          (List.replicate j ['.', '.']) =
        rest.foldl (cleanStep false) (List.replicate (j + k) ['.', '.']) := by
  induction k with
  | zero => intro j rest; simp
  | succ n ih =>
    intro j rest
    have hstep : cleanStep false (List.replicate j ['.', '.']) ['.', '.'] =
        List.replicate (j + 1) ['.', '.'] := by
      unfold cleanStep
      cases j with
      | zero => simp
      | succ i =>
        have hlast : (List.replicate (i + 1) ['.', '.']).getLast? = some ['.', '.'] := by
          rw [List.replicate_succ', List.getLast?_append]
          simp
        simp only [hlast]
        simp [← List.replicate_succ']
    rw [List.replicate_succ, List.cons_append, List.foldl_cons, hstep, ih]
    congr 2
    omega

/-- Reading again what `Clean` has written writes the same. -/
theorem foldl_cleanStep_of_shape (rooted : Bool) (out : List (List Char))
    (h : CleanShape rooted out) : out.foldl (cleanStep rooted) [] = out := by
  obtain ⟨k, names, hout, hnames, hk⟩ := h
  cases rooted with
  | true =>
    have hk0 := hk rfl
    subst hk0
    rw [hout, foldl_cleanStep_normal true _ [] (by simpa using hnames)]
    simp
  | false =>
    rw [hout]
    have := foldl_cleanStep_dotdots k 0 names
    simp only [List.replicate_zero, zero_add] at this
    rw [this, foldl_cleanStep_normal false names _ hnames]

/-- Every element of what `Clean` has written is non-empty. -/
theorem cleanShape_ne_nil (rooted : Bool) (out : List (List Char)) (h : CleanShape rooted out) :
    ∀ seg ∈ out, seg ≠ [] := by
  obtain ⟨k, names, hout, hnames, _⟩ := h
  intro seg hseg
  rw [hout] at hseg
  rcases List.mem_append.1 hseg with hm | hm
  · rw [List.eq_of_mem_replicate hm]; simp
  · exact (hnames seg hm).1

theorem joinSlash_head (seg : List Char) (rest : List (List Char)) (c : Char) (cs : List Char)
    (h : seg = c :: cs) : ∃ tail, joinSlash (seg :: rest) = c :: tail := by
  subst h
  cases rest with
  | nil => exact ⟨cs, rfl⟩
  | cons s2 r2 => exact ⟨cs ++ '/' :: joinSlash (s2 :: r2), rfl⟩

/-- `Clean` is idempotent. -/
theorem filepathClean_idem (path : String) :
    filepathClean (filepathClean path) = filepathClean path := by
  by_cases hp : path = ""
  · subst hp; decide
  · have hshape : ∀ r, CleanShape r (cleanSegs r path.data) := fun r => cleanSegs_shape r _
    have hns : ∀ r, ∀ seg ∈ cleanSegs r path.data, '/' ∉ seg := fun r => cleanSegs_noSlash r _
    have hfold : ∀ r, (cleanSegs r path.data).foldl (cleanStep r) [] = cleanSegs r path.data :=
      fun r => foldl_cleanStep_of_shape r _ (hshape r)
    by_cases hr : path.data.head? = some '/'
    · have e1 : filepathClean path = ⟨'/' :: joinSlash (cleanSegs true path.data)⟩ := by
        unfold filepathClean
        simp [hp, hr]
      have hsegs : cleanSegs true ('/' :: joinSlash (cleanSegs true path.data)) =
          cleanSegs true path.data := by
        have hdef : ∀ cs, cleanSegs true cs = (splitSlash cs).foldl (cleanStep true) [] :=
          fun _ => rfl
        rw [hdef ('/' :: joinSlash (cleanSegs true path.data))]
        rw [splitSlash_cons_slash, List.foldl_cons]
        have h0 : cleanStep true [] [] = [] := by simp [cleanStep]
        rw [h0]
        by_cases hnil : cleanSegs true path.data = []
        · rw [hnil]; simp [joinSlash, splitSlash, cleanStep]
        · rw [splitSlash_joinSlash _ hnil (hns true), hfold true]
      rw [e1]
      unfold filepathClean
      have hne : (⟨'/' :: joinSlash (cleanSegs true path.data)⟩ : String) ≠ "" := by
        intro e
        have := (string_eq_empty_iff _).1 e
        simp at this
      simp only [hne, if_false, List.head?_cons, decide_True, if_true, hsegs]
    · by_cases hnil : cleanSegs false path.data = []
      · have e1 : filepathClean path = "." := by
          unfold filepathClean
          simp [hp, hr, hnil]
        rw [e1]
        decide
      · have e1 : filepathClean path = ⟨joinSlash (cleanSegs false path.data)⟩ := by
          unfold filepathClean
          simp [hp, hr, hnil]
        obtain ⟨seg, rest, hs⟩ := List.exists_cons_of_ne_nil hnil
        have hseg : seg ≠ [] := cleanShape_ne_nil false _ (hshape false) seg (by simp [hs])
        obtain ⟨c, cs, hc⟩ := List.exists_cons_of_ne_nil hseg
        obtain ⟨tail, htail⟩ := joinSlash_head seg rest c cs hc
        have hcs : c ≠ '/' := by
          intro e
          have := hns false seg (by simp [hs])
          rw [hc, e] at this
          simp at this
        have hsegs : cleanSegs false (joinSlash (cleanSegs false path.data)) =
            cleanSegs false path.data := by
          have hdef : ∀ cs, cleanSegs false cs = (splitSlash cs).foldl (cleanStep false) [] :=
            fun _ => rfl
          rw [hdef (joinSlash (cleanSegs false path.data))]
          rw [splitSlash_joinSlash _ hnil (hns false), hfold false]
        rw [e1]
        unfold filepathClean
        have hne : (⟨joinSlash (cleanSegs false path.data)⟩ : String) ≠ "" := by
          intro e
          have := (string_eq_empty_iff _).1 e
          simp only at this
          rw [hs, htail] at this
          simp at this
        have hhead : (joinSlash (cleanSegs false path.data)).head? ≠ some '/' := by
          rw [hs, htail]
          simp [hcs]
        simp only [hne, if_false, hhead, decide_False, Bool.false_eq_true, hsegs, hnil]

/-- What `filepath.Dir` returns is clean. -/
theorem filepathClean_dir (path : String) :
    filepathClean (filepathDir path) = filepathDir path := by
  unfold filepathDir
  exact filepathClean_idem _

/-- A new directory in an existing directory keeps the tree well formed. -/
theorem put_dir_wellFormed (fs : FS) (key : String) (h : WellFormed fs)
    (hpar : fs (filepathDir key) = some .dir) : WellFormed (fs.put key .dir) := by
  intro q hq
  unfold FS.put at hq ⊢
  by_cases e : filepathDir q = key
  · simp [e]
  · simp only [e, if_false]
    by_cases eq : q = key
    · rw [eq] at e ⊢; exact hpar
    · simp only [eq, if_false] at hq
      exact h q hq

/-- A file put where there is none in an existing directory, or over a file,
keeps the tree well formed. -/
theorem put_file_wellFormed (fs : FS) (key data : String) (h : WellFormed fs)
    (hpar : fs key = none → fs (filepathDir key) = some .dir)
    (hnd : fs key ≠ some .dir) : WellFormed (fs.put key (.file data)) := by
  have hkey : fs (filepathDir key) = some .dir := by
    by_cases e : fs key = none
    · exact hpar e
    · exact h key e
  intro q hq
  unfold FS.put at hq ⊢
  have hq' : fs (filepathDir q) = some .dir := by
    by_cases eq : q = key
    · rw [eq]; exact hkey
    · simp only [eq, if_false] at hq
      exact h q hq
  have e : filepathDir q ≠ key := by
    intro e
    rw [e] at hq'
    exact hnd hq'
  simp only [e, if_false]
  exact hq'

theorem osMkdir_wellFormed (fs : FS) (path : String) (h : WellFormed fs) :
    WellFormed (osMkdir fs path).2 := by
  unfold osMkdir
  simp only
  split
  · exact h
  · split
    · rename_i hd
      exact put_dir_wellFormed fs _ h hd
    · exact h
    · exact h

theorem mkdirAllAux_wellFormed (fuel : Nat) :
    ∀ (fs : FS) (path : String), WellFormed fs → WellFormed (mkdirAllAux fuel fs path).2 := by
  induction fuel with
  | zero => intro fs path h; exact h
  | succ n ih =>
    intro fs path h
    unfold mkdirAllAux
    split
    · exact h
    · exact h
    · simp only
      have hpar : ∀ r : Option String × FS,
          (if (parentPart path).length > 0 then mkdirAllAux n fs (parentPart path)
            else (none, fs)) = r → WellFormed r.2 := by
        intro r hr
        rw [← hr]
        split
        · exact ih fs _ h
        · exact h
      split
      · rename_i err fs1 heq
        exact hpar _ heq
      · rename_i fs1 heq
        have h1 : WellFormed fs1 := hpar _ heq
        have h2 := osMkdir_wellFormed fs1 path h1
        split
        · rename_i fs2 hm
          rw [hm] at h2
          exact h2
        · rename_i err fs2 hm
          rw [hm] at h2
          split <;> exact h2

theorem osMkdirAll_wellFormed (fs : FS) (path : String) (h : WellFormed fs) :
    WellFormed (osMkdirAll fs path).2 :=
  mkdirAllAux_wellFormed _ fs path h

/-- After `os.Create` the tree is still well formed, and when it succeeded there
is an empty file at the path. -/
theorem osCreate_wellFormed (fs : FS) (path : String) (h : WellFormed fs) :
    WellFormed (osCreate fs path).2 ∧
      ((osCreate fs path).1 = none →
        (osCreate fs path).2 (filepathClean path) = some (.file "")) := by
  unfold osCreate
  simp only
  split
  · exact ⟨h, by simp⟩
  · rename_i d hk
    exact ⟨put_file_wellFormed fs _ _ h (by simp [hk]) (by simp [hk]),
      fun _ => FS.put_same _ _ _⟩
  · rename_i hk
    split
    · rename_i hd
      exact ⟨put_file_wellFormed fs _ _ h (fun _ => hd) (by simp [hk]),
        fun _ => FS.put_same _ _ _⟩
    · exact ⟨h, by simp⟩
    · exact ⟨h, by simp⟩

/-- Writing to the file `os.Create` has opened keeps the tree well formed. -/
theorem fileReadFrom_wellFormed (fs : FS) (path : String) (body : Body) (h : WellFormed fs)
    (hfile : fs (filepathClean path) = some (.file "")) :
    WellFormed (fileReadFrom fs path body).2 := by
  unfold fileReadFrom
  exact put_file_wellFormed fs _ _ h (by simp [hfile]) (by simp [hfile])

/-- The function `getContent` keeps the tree well formed, whatever its outcome. -/
theorem getContent_wellFormed (w : World σ) (cfg : Config) (key : String) (s : Sys σ)
    (h : WellFormed s.fs) : WellFormed (getContent w cfg key s).2.fs := by
  unfold getContent
  simp only
  split
  · exact h
  · split
    · rename_i heq; rw [clientDo_fs w _ s _ _ heq]; exact h
    · rename_i rs s1 heq
      have h1 : WellFormed s1.fs := by rw [clientDo_fs w _ s _ _ heq]; exact h
      split
      · exact h1
      · have h2 := osMkdirAll_wellFormed s1.fs
          (filepathDir (filepathJoin [cfg.dataFolder, key])) h1
        split
        · rename_i hm; rw [hm] at h2; exact h2
        · rename_i fs1 hm
          rw [hm] at h2
          have h3 := osCreate_wellFormed fs1 (filepathJoin [cfg.dataFolder, key]) h2
          split
          · rename_i hcr; rw [hcr] at h3; exact h3.1
          · rename_i fs2 hcr
            rw [hcr] at h3
            have h4 := fileReadFrom_wellFormed fs2 (filepathJoin [cfg.dataFolder, key]) rs.Body
              h3.1 (h3.2 rfl)
            split
            · rename_i hw; rw [hw] at h4; exact h4
            · rename_i hw; rw [hw] at h4; exact h4

/-- In a well-formed tree everything above an existing node is a directory. -/
theorem wellFormed_ancestors (fs : FS) (h : WellFormed fs) (q : String) (hq : fs q ≠ none) :
    ∀ n : Nat, fs (filepathDir^[n + 1] q) = some .dir := by
  intro n
  induction n with
  | zero => exact h q hq
  | succ m ih =>
    rw [Function.iterate_succ_apply']
    exact h _ (by rw [ih]; simp)

/-- The ancestors of a path as `filepath.Dir` gives them are clean. -/
theorem filepathClean_iterate_dir (path : String) (n : Nat) :
    filepathClean (filepathDir^[n + 1] path) = filepathDir^[n + 1] path := by
  rw [Function.iterate_succ_apply']
  exact filepathClean_dir _

/-! ## The claims -/

/-- C1: when the pages `getAllBucketList` consumes are `pages` followed by
`final`, all truncated except `final`, it returns (given fuel for one turn per
page) the last page with `Contents` replaced by the concatenation of all pages'
entries in page-then-within-page order; the number of entries is the sum of the
per-page numbers; and a single page without entries gives a catalog without
entries and no error. -/
theorem getAllBucketList_concatenates_pages (w : World σ) (cfg : Config) (s : Sys σ)
    (pages : List ListBucketResult) (final : ListBucketResult) (fuel : Nat)
    (hserve : ServesPages w cfg ListBucketResult.zero s (pages ++ [final]))
    (htrunc : ∀ p ∈ pages, p.IsTruncated = true) (hfinal : final.IsTruncated = false)
    (hfuel : pages.length < fuel) :
    (getAllBucketList w cfg fuel s).1 =
        some (.ok { final with
          Contents := ((pages ++ [final]).map (fun p => p.Contents)).flatten }) ∧
      (((pages ++ [final]).map (fun p => p.Contents)).flatten).length =
        ((pages ++ [final]).map (fun p => p.Contents.length)).sum ∧
      (pages = [] → final.Contents = [] →
        (getAllBucketList w cfg fuel s).1 = some (.ok final)) := by
  have hrun := getAllBucketList_run w cfg s pages final fuel hserve htrunc hfinal hfuel
  refine ⟨by rw [hrun], ?_, ?_⟩
  · rw [List.length_flatten, List.map_map]
    rfl
  · intro hp hc
    subst hp
    rw [hrun]
    cases final
    simp_all

/-- C1 on the sample bucket: three pages, the first two truncated. -/
theorem getAllBucketList_concatenates_pages_sample :
    (getAllBucketList (sampleWorld [sampleOK "page1", sampleOK "page2", sampleOK "page3"])
        sampleCfg 7 sampleSys).1 =
      some (.ok { samplePage3 with
        Contents := [sampleContent "a/1.bin" 3, sampleContent "b/2.bin" 0,
          sampleContent "b/3.bin" 5, sampleContent "c.bin" 2] }) :=
  (getAllBucketList_concatenates_pages
    (sampleWorld [sampleOK "page1", sampleOK "page2", sampleOK "page3"]) sampleCfg sampleSys
    [samplePage1, samplePage2] samplePage3 7
    (by decide) (by decide) (by decide) (by decide)).1

/-- C1 on an empty bucket: one page without entries gives a catalog without
entries, not an error. -/
theorem getAllBucketList_empty_bucket_sample :
    (getAllBucketList (sampleWorld [sampleOK "empty"]) sampleCfg 1 sampleSys).1 =
      some (.ok (samplePage "" false [])) := by
  decide

/-- C2: when the reducer has consumed any number of truncated pages and the next
request fails (the request cannot be built, transport failure, a status other
than 200, or a body that does not decode), `getAllBucketList` returns an error
wrapping the cause and no catalog, whatever the earlier pages held. -/
theorem getAllBucketList_fails_on_any_page (w : World σ) (cfg : Config) (s : Sys σ)
    (pages : List ListBucketResult) (fuel : Nat)
    (hserve : ServesPages w cfg ListBucketResult.zero s pages)
    (htrunc : ∀ p ∈ pages, p.IsTruncated = true)
    (hfail : fetchFails w (listURL cfg (afterPages w cfg ListBucketResult.zero s pages).1)
      (afterPages w cfg ListBucketResult.zero s pages).2 = true)
    (hfuel : pages.length < fuel) :
    (∃ err, (getAllBucketList w cfg fuel s).1 =
        some (.error ("failed to get bucket list: " ++ err))) ∧
      ∀ r, (getAllBucketList w cfg fuel s).1 ≠ some (.ok r) := by
  obtain ⟨k, rfl⟩ : ∃ k, fuel = pages.length + (k + 1) := ⟨fuel - pages.length - 1, by omega⟩
  obtain ⟨err, herr⟩ := getBucketList_of_fetchFails w _ _ hfail
  have hrun : (getAllBucketList w cfg (pages.length + (k + 1)) s).1 =
      some (.error ("failed to get bucket list: " ++ err)) := by
    unfold getAllBucketList
    rw [loop_truncated_pages w cfg (k + 1) pages [] _ s hserve htrunc]
    rw [loop_step_error w cfg k _ _ _ err herr]
  exact ⟨⟨err, hrun⟩, fun r hr => by rw [hrun] at hr; cases hr⟩

/-- C2 on the sample bucket: the first page arrives, the second request is
answered 404, and the two entries of the first page are not returned. -/
theorem getAllBucketList_fails_on_any_page_sample :
    (∃ err, (getAllBucketList (sampleWorld [sampleOK "page1", sampleNotFound])
        sampleCfg 7 sampleSys).1 = some (.error ("failed to get bucket list: " ++ err))) ∧
      ∀ r, (getAllBucketList (sampleWorld [sampleOK "page1", sampleNotFound])
        sampleCfg 7 sampleSys).1 ≠ some (.ok r) :=
  getAllBucketList_fails_on_any_page (sampleWorld [sampleOK "page1", sampleNotFound])
    sampleCfg sampleSys [samplePage1] 7 (by decide) (by decide) (by decide) (by decide)

/-- C3: a run of `getAllBucketList` adds the exchanges `listingRequests` to the
record.  With fuel for one turn and a first request that can be built, a first
request is issued, and the first request is for exactly
`storageURL + bucketName`.  Every later request follows a request that was
answered with a page `p` that decoded and is for
`storageURL + bucketName + "?marker=" + p.NextMarker` when that marker is not
empty and for exactly `storageURL + bucketName` when it is; and after every
request answered 200 with a truncated page that decodes the next request is
issued, as long as fuel is left and it can be built.  When the pages served are
`pages` (all truncated) followed by an untruncated `final`, the URLs requested
are exactly `storageURL + bucketName` followed by one URL per page of `pages`,
derived from its next-marker in that way. -/
theorem getAllBucketList_request_urls (w : World σ) (cfg : Config) (fuel : Nat) (s : Sys σ) :
    (getAllBucketList w cfg fuel s).2.http = s.http ++ listingRequests w cfg fuel s ∧
      (0 < fuel → w.newRequest (cfg.storageURL ++ cfg.bucketName) = none →
        ∃ e, (listingRequests w cfg fuel s).head? = some e) ∧
      (∀ e, (listingRequests w cfg fuel s).head? = some e →
        e.url = cfg.storageURL ++ cfg.bucketName) ∧
      (∀ (i : Nat) (e e' : Exchange), (listingRequests w cfg fuel s)[i]? = some e →
        (listingRequests w cfg fuel s)[i + 1]? = some e' →
        ∃ rs p, e.reply = .response rs ∧ w.xmlDecode rs.Body = .ok p ∧
          (p.NextMarker ≠ "" →
            e'.url = cfg.storageURL ++ cfg.bucketName ++ "?marker=" ++ p.NextMarker) ∧
          (p.NextMarker = "" → e'.url = cfg.storageURL ++ cfg.bucketName)) ∧
      (∀ (i : Nat) (e : Exchange) (rs : Response) (p : ListBucketResult),
        (listingRequests w cfg fuel s)[i]? = some e → e.reply = .response rs →
        rs.StatusCode = 200 → w.xmlDecode rs.Body = .ok p → p.IsTruncated = true →
        i + 1 < fuel →
        w.newRequest (if p.NextMarker = "" then cfg.storageURL ++ cfg.bucketName
          else cfg.storageURL ++ cfg.bucketName ++ "?marker=" ++ p.NextMarker) = none →
        ∃ e', (listingRequests w cfg fuel s)[i + 1]? = some e') ∧
      (∀ (pages : List ListBucketResult) (final : ListBucketResult),
        ServesPages w cfg ListBucketResult.zero s (pages ++ [final]) →
        (∀ p ∈ pages, p.IsTruncated = true) → final.IsTruncated = false →
        pages.length < fuel →
        (listingRequests w cfg fuel s).map (fun e => e.url) =
          (cfg.storageURL ++ cfg.bucketName) ::
            pages.map (fun p =>
              if p.NextMarker = "" then cfg.storageURL ++ cfg.bucketName
              else cfg.storageURL ++ cfg.bucketName ++ "?marker=" ++ p.NextMarker)) := by
  have hurl : ∀ p : ListBucketResult, listURL cfg p =
      if p.NextMarker = "" then cfg.storageURL ++ cfg.bucketName
      else cfg.storageURL ++ cfg.bucketName ++ "?marker=" ++ p.NextMarker := by
    intro p
    unfold listURL
    by_cases hm : p.NextMarker = "" <;> simp [hm]
  have hzero : listURL cfg ListBucketResult.zero = cfg.storageURL ++ cfg.bucketName := by
    simp [listURL, ListBucketResult.zero]
  have happ : (getAllBucketList w cfg fuel s).2.http = s.http ++ listingRequests w cfg fuel s :=
    loop_http_append w cfg fuel [] ListBucketResult.zero s
  obtain ⟨new, hnew, hchain⟩ := loop_urlChain w cfg fuel [] ListBucketResult.zero s
  have hsame : new = listingRequests w cfg fuel s := by
    have h : s.http ++ new = s.http ++ listingRequests w cfg fuel s := by
      rw [← happ]
      exact hnew.symm
    exact List.append_cancel_left h
  rw [hsame] at hchain
  have hprog := loop_progress w cfg fuel [] ListBucketResult.zero s _ happ
  refine ⟨happ, ?_, ?_, ?_, ?_, ?_⟩
  · intro hf hn
    exact hprog.1 hf (by rw [hzero]; exact hn)
  · intro e he
    rw [urlChain_head w cfg _ _ hchain e he, hzero]
  · intro i e e' he he'
    obtain ⟨rs, p, h1, h2, h3⟩ := urlChain_next w cfg _ _ hchain i e e' he he'
    refine ⟨rs, p, h1, h2, ?_, ?_⟩
    · intro hm; rw [h3, hurl]; simp [hm]
    · intro hm; rw [h3, hurl]; simp [hm]
  · intro i e rs p he hr hc hd ht hi hn
    exact hprog.2 i e rs p he hr hc hd ht hi (by rw [hurl]; exact hn)
  · intro pages final hserve htrunc hfinal hfuel
    have hrun := getAllBucketList_run w cfg s pages final fuel hserve htrunc hfinal hfuel
    unfold listingRequests
    rw [hrun]
    simp only
    rw [afterPages_urls w cfg _ _ s hserve, pageURLs_concat, hzero]
    congr 1
    exact List.map_congr_left (fun p _ => hurl p)

/-- C3 on the sample bucket: the second request carries the first page's marker,
the third none because the second page has an empty marker. -/
theorem getAllBucketList_request_urls_sample :
    (listingRequests (sampleWorld [sampleOK "page1", sampleOK "page2", sampleOK "page3"])
        sampleCfg 7 sampleSys).map (fun e => e.url) =
      ["https://storage.example/bucket", "https://storage.example/bucket?marker=b/2.bin",
        "https://storage.example/bucket"] :=
  ((getAllBucketList_request_urls
      (sampleWorld [sampleOK "page1", sampleOK "page2", sampleOK "page3"])
      sampleCfg 7 sampleSys).2.2.2.2.2 [samplePage1, samplePage2] samplePage3
    (by decide) (by decide) (by decide) (by decide)).trans (by decide)

/-- C4: when the pages served are `pages`, all truncated, followed by `final`
with truncation flag false, then for every amount of fuel above the number of
truncated pages `getAllBucketList` returns a catalog, is left in the state
reached right after fetching `final`, and has issued exactly one request per
page; nothing is assumed about the next-marker of `final`. -/
theorem getAllBucketList_stops_at_untruncated (w : World σ) (cfg : Config) (s : Sys σ)
    (pages : List ListBucketResult) (final : ListBucketResult) (fuel : Nat)
    (hserve : ServesPages w cfg ListBucketResult.zero s (pages ++ [final]))
    (htrunc : ∀ p ∈ pages, p.IsTruncated = true) (hfinal : final.IsTruncated = false)
    (hfuel : pages.length < fuel) :
    (∃ r, (getAllBucketList w cfg fuel s).1 = some (.ok r)) ∧
      (getAllBucketList w cfg fuel s).2 =
        (afterPages w cfg ListBucketResult.zero s (pages ++ [final])).2 ∧
      (getAllBucketList w cfg fuel s).2.http.length = s.http.length + (pages.length + 1) := by
  have hrun := getAllBucketList_run w cfg s pages final fuel hserve htrunc hfinal hfuel
  refine ⟨⟨_, by rw [hrun]⟩, by rw [hrun], ?_⟩
  rw [hrun]
  have := afterPages_http_length w cfg (pages ++ [final]) _ s hserve
  simpa using this

/-- C4 on the sample bucket: the third page is not truncated but carries the
next-marker `zzz`; the run ends there after three requests, with fuel to spare. -/
theorem getAllBucketList_stops_at_untruncated_sample :
    samplePage3.NextMarker = "zzz" ∧
      (getAllBucketList (sampleWorld [sampleOK "page1", sampleOK "page2", sampleOK "page3"])
        sampleCfg 100 sampleSys).2.http.length = 0 + (2 + 1) :=
  ⟨by decide,
    (getAllBucketList_stops_at_untruncated
      (sampleWorld [sampleOK "page1", sampleOK "page2", sampleOK "page3"]) sampleCfg sampleSys
      [samplePage1, samplePage2] samplePage3 100
      (by decide) (by decide) (by decide) (by decide)).2.2⟩

/-- C5: in every run of the download phase (the list read in the order the units
take effect) `er.Wait()` is an error as soon as one unit returned one, and is
`nil` only if every unit returned `nil`; every unit is run, each in the state
its predecessors left, whatever they returned; and every entry of non-zero size
whose own unit returned `nil` has a file at its joined path when the phase ends. -/
theorem downloadPhase_first_failure_wins (w : World σ) (cfg : Config)
    (contents : List Content) (s : Sys σ) :
    ((∃ r ∈ runUnits w cfg contents s, r.1 ≠ none) →
        (downloadPhase w cfg contents s).1 ≠ none) ∧
      ((downloadPhase w cfg contents s).1 = none →
        ∀ r ∈ runUnits w cfg contents s, r.1 = none) ∧
      (runUnits w cfg contents s).length = contents.length ∧
      (∀ (i : Nat) (c : Content) (r : Option String × Sys σ),
        contents[i]? = some c → (runUnits w cfg contents s)[i]? = some r →
          r = downloadUnit w cfg c (finalState w cfg (contents.take i) s)) ∧
      (∀ (i : Nat) (c : Content) (r : Option String × Sys σ),
        contents[i]? = some c → (runUnits w cfg contents s)[i]? = some r →
          r.1 = none → c.Size ≠ 0 →
          ∃ data, osStat (downloadPhase w cfg contents s).2.fs
            (filepathJoin [cfg.dataFolder, c.Key]) = some (.file data)) := by
  rw [downloadPhase_eq]
  refine ⟨?_, ?_, ?_, ?_, ?_⟩
  · rintro ⟨r, hr, hne⟩ hnone
    exact hne ((firstError_eq_none _).1 hnone r hr)
  · intro hnone
    exact (firstError_eq_none _).1 hnone
  · exact runUnits_length w cfg contents s
  · intro i c r hc hr
    exact (runUnits_getElem w cfg contents s i c r hc hr).1
  · intro i c r hc hr hnone hsize
    obtain ⟨h1, h2⟩ := runUnits_getElem w cfg contents s i c r hc hr
    have hunit : downloadUnit w cfg c (finalState w cfg (contents.take i) s) =
        getContent w cfg c.Key (finalState w cfg (contents.take i) s) := by
      unfold downloadUnit
      simp [hsize]
    rw [hunit] at h1
    rw [h1] at hnone
    obtain ⟨rs, _, _, hfile⟩ := getContent_ok_file w cfg c.Key _ hnone
    simp only
    rw [h2, h1]
    exact finalState_isFile w cfg _ _ _ ⟨_, hfile⟩

/-- C5 on the sample bucket: of the four entries the third is answered 404; the
phase returns that error, and the files of the first and of the fourth entry,
which comes after the failure, are on disk. -/
theorem downloadPhase_first_failure_wins_sample :
    (downloadPhase (sampleWorld []) sampleCfg
        (samplePage1.Contents ++ samplePage2.Contents ++ samplePage3.Contents) sampleSys).1 =
        some "failed to access content: 404 Not Found" ∧
      osStat (downloadPhase (sampleWorld []) sampleCfg
        (samplePage1.Contents ++ samplePage2.Contents ++ samplePage3.Contents) sampleSys).2.fs
        "data/a/1.bin" = some (.file "abc") ∧
      osStat (downloadPhase (sampleWorld []) sampleCfg
        (samplePage1.Contents ++ samplePage2.Contents ++ samplePage3.Contents) sampleSys).2.fs
        "data/c.bin" = some (.file "hi") := by
  decide

/-- C6: for an entry of positive size whose request can be built and is answered
200 with a body that yields `B` without a read failure, and for which
`os.MkdirAll` and `os.Create` do not fail, the unit is `getContent`, it returns
no error, the joined path holds a file whose content is exactly `B`, the
directory of that path exists, and in a well-formed tree so does every
directory above it. -/
theorem getContent_writes_body (w : World σ) (cfg : Config) (content : Content) (s : Sys σ)
    (rs : Response) (B : String)
    (hsize : 0 < content.Size)
    (hreq : w.newRequest (cfg.storageURL ++ cfg.bucketName ++ "/" ++ content.Key) = none)
    (hget : (w.roundTrip s.srv (cfg.storageURL ++ cfg.bucketName ++ "/" ++ content.Key)).1 =
      .response rs)
    (hstatus : rs.StatusCode = 200)
    (hbody : rs.Body = { data := B, readErr := none })
    (hmkdir : (osMkdirAll s.fs
      (filepathDir (filepathJoin [cfg.dataFolder, content.Key]))).1 = none)
    (hcreate : (osCreate (osMkdirAll s.fs
      (filepathDir (filepathJoin [cfg.dataFolder, content.Key]))).2
        (filepathJoin [cfg.dataFolder, content.Key])).1 = none) :
    downloadUnit w cfg content s = getContent w cfg content.Key s ∧
      (getContent w cfg content.Key s).1 = none ∧
      osStat (getContent w cfg content.Key s).2.fs
        (filepathJoin [cfg.dataFolder, content.Key]) = some (.file B) ∧
      osStat (getContent w cfg content.Key s).2.fs
        (filepathDir (filepathJoin [cfg.dataFolder, content.Key])) = some .dir ∧
      (WellFormed s.fs → ∀ n : Nat,
        osStat (getContent w cfg content.Key s).2.fs
          (filepathDir^[n + 1] (filepathJoin [cfg.dataFolder, content.Key])) = some .dir) := by
  have hrun := getContent_eq_ok w cfg content.Key s rs B hreq hget hstatus hbody hmkdir hcreate
  have hparent : osStat (getContent w cfg content.Key s).2.fs
      (filepathDir (filepathJoin [cfg.dataFolder, content.Key])) = some .dir := by
    rw [hrun]
    have hdir := osMkdirAll_ok s.fs _ hmkdir
    rcases osCreate_cases (osMkdirAll s.fs
      (filepathDir (filepathJoin [cfg.dataFolder, content.Key]))).2
        (filepathJoin [cfg.dataFolder, content.Key]) with ⟨h1, _⟩ | ⟨_, h2, h3⟩
    · exact absurd hcreate h1
    · have hne : filepathClean (filepathDir (filepathJoin [cfg.dataFolder, content.Key])) ≠
          filepathClean (filepathJoin [cfg.dataFolder, content.Key]) := by
        intro e
        unfold osStat at hdir
        rw [e] at hdir
        exact h3 hdir
      unfold osStat at hdir ⊢
      simp only
      rw [FS.put_other _ _ _ _ hne, h2, FS.put_other _ _ _ _ hne]
      exact hdir
  refine ⟨?_, by rw [hrun], ?_, hparent, ?_⟩
  · unfold downloadUnit
    have : content.Size ≠ 0 := by omega
    simp [this]
  · rw [hrun]
    exact FS.put_same _ _ _
  · intro hwf n
    have hwf' := getContent_wellFormed w cfg content.Key s hwf
    unfold osStat at hparent ⊢
    rw [filepathClean_dir] at hparent
    rw [filepathClean_iterate_dir]
    cases n with
    | zero => exact hparent
    | succ m =>
      rw [Function.iterate_succ_apply]
      exact wellFormed_ancestors _ hwf' _ (by rw [hparent]; simp) m

/-- C6 on the sample bucket: `a/1.bin` is answered with `abc`, which ends up in
`data/a/1.bin` below the new directory `data/a`. -/
theorem getContent_writes_body_sample :
    (getContent (sampleWorld []) sampleCfg "a/1.bin" sampleSys).1 = none ∧
      osStat (getContent (sampleWorld []) sampleCfg "a/1.bin" sampleSys).2.fs
        (filepathJoin ["./data", "a/1.bin"]) = some (.file "abc") ∧
      osStat (getContent (sampleWorld []) sampleCfg "a/1.bin" sampleSys).2.fs
        (filepathDir (filepathJoin ["./data", "a/1.bin"])) = some .dir :=
  have h := getContent_writes_body (sampleWorld []) sampleCfg (sampleContent "a/1.bin" 3)
    sampleSys
    { StatusCode := 200, Status := "200 OK", Body := { data := "abc", readErr := none } } "abc"
    (by decide) (by decide) (by decide) (by decide) (by decide) (by decide) (by decide)
  ⟨h.2.1, h.2.2.1, h.2.2.2.1⟩

/-- C7: the unit of an entry of size zero returns `nil` and leaves the whole
state (server, record of requests, file tree) as it was; and the download phase
over a catalog that holds such an entry returns the same error and ends in the
same state as over the catalog without it. -/
theorem downloadUnit_skips_empty (w : World σ) (cfg : Config) (content : Content)
    (s : Sys σ) (hsize : content.Size = 0) :
    downloadUnit w cfg content s = (none, s) ∧
      ∀ (before after : List Content),
        downloadPhase w cfg (before ++ content :: after) s =
          downloadPhase w cfg (before ++ after) s := by
  have hunit : ∀ t : Sys σ, downloadUnit w cfg content t = (none, t) := by
    intro t
    unfold downloadUnit
    simp [hsize]
  refine ⟨hunit s, ?_⟩
  intro before after
  unfold downloadPhase
  simp only [List.foldl_append, List.foldl_cons]
  have hgo : ∀ (g : Group) (t : Sys σ), g.Go (downloadUnit w cfg content) t = (g, t) := by
    intro g t
    unfold Group.Go
    simp [hunit t]
  rw [hgo]

/-- C7 on the sample bucket: `b/2.bin` has size zero; no request is recorded for
it and the file tree has nothing at its path. -/
theorem downloadUnit_skips_empty_sample :
    (downloadUnit (sampleWorld []) sampleCfg (sampleContent "b/2.bin" 0) sampleSys =
        (none, sampleSys) ∧
      ∀ (before after : List Content),
        downloadPhase (sampleWorld []) sampleCfg
            (before ++ sampleContent "b/2.bin" 0 :: after) sampleSys =
          downloadPhase (sampleWorld []) sampleCfg (before ++ after) sampleSys) ∧
      sampleSys.http = [] ∧ osStat sampleSys.fs "data/b/2.bin" = none :=
  ⟨downloadUnit_skips_empty (sampleWorld []) sampleCfg (sampleContent "b/2.bin" 0) sampleSys
    (by decide), by decide, by decide⟩

/-- C8 as stated fails: the distinct keys `a//b` and `a/b` are written to the
same file, because `filepath.Join` cleans the joined path. -/
theorem filepathJoin_not_injective :
    "a//b" ≠ "a/b" ∧
      filepathJoin ["./data", "a//b"] = "data/a/b" ∧
      filepathJoin ["./data", "a/b"] = "data/a/b" := by
  decide

/-- C8 amended: for every destination directory, two distinct keys all of whose
slash-separated elements are proper names (none empty, `.` or `..`) are given
distinct paths by `filepath.Join`. -/
theorem filepathJoin_injective_on_clean_keys (dataFolder k1 k2 : String)
    (h1 : cleanKey k1 = true) (h2 : cleanKey k2 = true) (hne : k1 ≠ k2) :
    filepathJoin [dataFolder, k1] ≠ filepathJoin [dataFolder, k2] :=
  fun h => hne (filepathJoin_cleanKey_inj dataFolder k1 k2 h1 h2 h)

/-- C8 amended, on two nested keys below the default data folder. -/
theorem filepathJoin_injective_on_clean_keys_sample :
    filepathJoin ["./data", "a/b/c.bin"] ≠ filepathJoin ["./data", "a/b/d.bin"] :=
  filepathJoin_injective_on_clean_keys "./data" "a/b/c.bin" "a/b/d.bin"
    (by decide) (by decide) (by decide)

/-- C9 at the failing input: with the positional argument `out` (alone, or after
a flag) `main` parses the flags as expected but runs with the data folder
`./data`, because `flag.Arg(0)` is read before `flag.Parse()` has stored the
arguments; whatever the command line, the data folder is `./data`; and a run of
`main` with the argument `out` writes below `data`, not below `out`. -/
theorem mainFlags_ignores_positional :
    mainFlags ["out"] =
        .ok { storageURL := "https://storage.googleapis.com/", bucketName := "pokemongolive",
              dataFolder := "./data" } ∧
      mainFlags ["-bucket-name", "b", "out"] =
        .ok { storageURL := "https://storage.googleapis.com/", bucketName := "b",
              dataFolder := "./data" } ∧
      (∀ argv cfg, mainFlags argv = .ok cfg → cfg.dataFolder = "./data") ∧
      osStat (main (sampleWorld [sampleOK "page3"])
        ["-storage-url", "https://storage.example/", "-bucket-name", "bucket", "out"]
        3 sampleSys).2.fs "data/c.bin" = some (.file "hi") ∧
      osStat (main (sampleWorld [sampleOK "page3"])
        ["-storage-url", "https://storage.example/", "-bucket-name", "bucket", "out"]
        3 sampleSys).2.fs "out/c.bin" = none :=
  ⟨by decide, by decide, mainFlags_dataFolder, by decide, by decide⟩

end GoogleStorageDumper
